import Mathlib

/-!
Verification development for the OpenCCFontGenerator font table
transformation engine (`src/OpenCCFontGenerator/font.py`).

The Python code manipulates a JSON font document (as produced by an
external decompiler).  We shallow-embed the document as a Lean structure:

* Python `dict`s become association lists (`List (κ × β)`); real decoded
  fonts have duplicate-free keys, which theorems assume where needed via
  `keysNodup`.  `dict.get` is `lookupA`, `del`/`pop` is `eraseKey`,
  assignment to an existing key is `setKey`.
* Python `set`s of glyph names are lists used up to membership.
* Code that can raise (`KeyError`, `ValueError`, `AssertionError`,
  `NotImplementedError`) is embedded in `Except String`.
* Positioning/anchor payload records are never inspected by the code
  (only their keys are); they are embedded as the uninterpreted `Payload`.
* Codepoints travel as decimal strings through the Python code
  (`str(codepoint)`); since `str` is injective on integers we embed them
  directly as `Nat`.
-/

namespace OpenCC

/-- Payload of positioning records, anchors and base coordinates: the code
never looks inside these values, only at the glyph-name keys around them. -/
abbrev Payload := Nat

/-! ## Association list primitives (Python dict operations) -/

/-- Python `dict.get k` / `dict[k]` value access on an association list. -/
def lookupA {κ β : Type} [DecidableEq κ] : List (κ × β) → κ → Option β
  | [], _ => none
  | e :: rest, k => if e.1 = k then some e.2 else lookupA rest k

/-- Python `k in dict`. -/
def keyMem {κ β : Type} [DecidableEq κ] (m : List (κ × β)) (k : κ) : Bool :=
  (lookupA m k).isSome

/-- Python `del dict[k]` / `dict.pop(k, None)`: drop the entry for `k`. -/
def eraseKey {κ β : Type} [DecidableEq κ] : List (κ × β) → κ → List (κ × β)
  | [], _ => []
  | e :: rest, k => if e.1 = k then eraseKey rest k else e :: eraseKey rest k

/-- Python `dict[k] = v`: update the entry in place when the key exists
(keeping its position), append at the end otherwise. -/
def setKey {κ β : Type} [DecidableEq κ] : List (κ × β) → κ → β → List (κ × β)
  | [], k, v => [(k, v)]
  | e :: rest, k, v => if e.1 = k then (k, v) :: rest else e :: setKey rest k v

/-- Python `dict.get(k, d)` (and `defaultdict` reads, which default to `[]`). -/
def getD {κ β : Type} [DecidableEq κ] (m : List (κ × β)) (k : κ) (d : β) : β :=
  (lookupA m k).getD d

/-- Duplicate-freedom of the key sequence of an association list. -/
def keysNodup {κ β : Type} (m : List (κ × β)) : Prop :=
  (m.map (·.1)).Nodup

@[simp] theorem lookupA_nil {κ β : Type} [DecidableEq κ] (k : κ) :
    lookupA ([] : List (κ × β)) k = none := rfl

@[simp] theorem lookupA_cons {κ β : Type} [DecidableEq κ] (e : κ × β) (m : List (κ × β)) (k : κ) :
    lookupA (e :: m) k = if e.1 = k then some e.2 else lookupA m k := rfl

theorem lookupA_mem {κ β : Type} [DecidableEq κ] {m : List (κ × β)} {k : κ} {v : β}
    (h : lookupA m k = some v) : (k, v) ∈ m := by
  induction m with
  | nil => simp [lookupA] at h
  | cons e rest ih =>
    simp only [lookupA_cons] at h
    by_cases he : e.1 = k
    · simp only [he, if_true, Option.some.injEq] at h
      have : e = (k, v) := by cases e; simp_all
      rw [this]
      exact List.mem_cons_self _ _
    · exact List.mem_cons_of_mem _ (ih (by simpa [he] using h))

theorem lookupA_eq_none_iff {κ β : Type} [DecidableEq κ] {m : List (κ × β)} {k : κ} :
    lookupA m k = none ↔ k ∉ m.map (·.1) := by
  induction m with
  | nil => simp
  | cons e rest ih =>
    simp only [lookupA_cons, List.map_cons, List.mem_cons]
    by_cases he : e.1 = k
    · simp [he]
    · rw [if_neg he, ih]
      constructor
      · intro h hk
        rcases hk with hk | hk
        · exact he hk.symm
        · exact h hk
      · intro h hk
        exact h (Or.inr hk)

theorem lookupA_isSome_of_mem {κ β : Type} [DecidableEq κ] {m : List (κ × β)} {k : κ} {v : β}
    (h : (k, v) ∈ m) : (lookupA m k).isSome := by
  induction m with
  | nil => simp at h
  | cons e rest ih =>
    rcases List.mem_cons.mp h with h | h
    · simp [lookupA_cons, ← h]
    · by_cases he : e.1 = k <;> simp [lookupA_cons, he, ih h]

theorem lookupA_of_mem_nodup {κ β : Type} [DecidableEq κ] {m : List (κ × β)} {k : κ} {v : β}
    (hm : keysNodup m) (h : (k, v) ∈ m) : lookupA m k = some v := by
  induction m with
  | nil => simp at h
  | cons e rest ih =>
    simp only [keysNodup, List.map_cons, List.nodup_cons] at hm
    rcases List.mem_cons.mp h with h | h
    · simp [lookupA_cons, ← h]
    · have hk : e.1 ≠ k := by
        intro he
        exact hm.1 (he ▸ (List.mem_map.mpr ⟨(k, v), h, rfl⟩))
      simp [lookupA_cons, hk, ih hm.2 h]

@[simp] theorem eraseKey_nil {κ β : Type} [DecidableEq κ] (k : κ) :
    eraseKey ([] : List (κ × β)) k = [] := rfl

theorem eraseKey_sublist {κ β : Type} [DecidableEq κ] (m : List (κ × β)) (k : κ) :
    (eraseKey m k).Sublist m := by
  induction m with
  | nil => simp
  | cons e rest ih =>
    by_cases he : e.1 = k
    · simp only [eraseKey, he, if_true]
      exact ih.cons e
    · simp only [eraseKey, he, if_false]
      exact ih.cons₂ e

theorem lookupA_eraseKey_ne {κ β : Type} [DecidableEq κ] (m : List (κ × β)) {k k' : κ}
    (h : k' ≠ k) : lookupA (eraseKey m k) k' = lookupA m k' := by
  induction m with
  | nil => rfl
  | cons e rest ih =>
    by_cases he : e.1 = k
    · have hne : e.1 ≠ k' := by
        rw [he]
        intro hh
        exact h hh.symm
      rw [eraseKey, if_pos he, ih, lookupA_cons, if_neg hne]
    · rw [eraseKey, if_neg he, lookupA_cons, lookupA_cons, ih]

@[simp] theorem lookupA_eraseKey_self {κ β : Type} [DecidableEq κ] (m : List (κ × β)) (k : κ) :
    lookupA (eraseKey m k) k = none := by
  induction m with
  | nil => rfl
  | cons e rest ih =>
    by_cases he : e.1 = k <;> simp [eraseKey, he, lookupA_cons, ih]

theorem keysNodup_eraseKey {κ β : Type} [DecidableEq κ] {m : List (κ × β)} (k : κ)
    (h : keysNodup m) : keysNodup (eraseKey m k) := by
  unfold keysNodup at h ⊢
  exact ((eraseKey_sublist m k).map (·.1)).nodup h

theorem mem_keys_setKey {κ β : Type} [DecidableEq κ] {m : List (κ × β)} {k a : κ} {v : β}
    (h : a ∈ (setKey m k v).map (·.1)) : a ∈ m.map (·.1) ∨ a = k := by
  induction m with
  | nil => simpa [setKey] using h
  | cons e rest ih =>
    by_cases he : e.1 = k
    · simp only [setKey, he, if_true, List.map_cons, List.mem_cons] at h
      rcases h with h | h
      · exact Or.inr h
      · exact Or.inl (by simp [List.mem_cons, h])
    · simp only [setKey, he, if_false, List.map_cons, List.mem_cons] at h ⊢
      rcases h with h | h
      · exact Or.inl (Or.inl h)
      · rcases ih h with h' | h'
        · exact Or.inl (Or.inr h')
        · exact Or.inr h'

@[simp] theorem lookupA_setKey_self {κ β : Type} [DecidableEq κ] (m : List (κ × β)) (k : κ)
    (v : β) : lookupA (setKey m k v) k = some v := by
  induction m with
  | nil => simp [setKey, lookupA_cons]
  | cons e rest ih =>
    by_cases he : e.1 = k <;> simp [setKey, he, lookupA_cons, ih]

theorem lookupA_setKey_ne {κ β : Type} [DecidableEq κ] (m : List (κ × β)) {k k' : κ} (v : β)
    (h : k' ≠ k) : lookupA (setKey m k v) k' = lookupA m k' := by
  have h1 : k ≠ k' := fun hh => h hh.symm
  induction m with
  | nil => simp [setKey, lookupA_cons, h1]
  | cons e rest ih =>
    by_cases he : e.1 = k
    · have h2 : e.1 ≠ k' := by rw [he]; exact h1
      rw [setKey, if_pos he, lookupA_cons, lookupA_cons, if_neg h1, if_neg h2]
    · rw [setKey, if_neg he, lookupA_cons, lookupA_cons, ih]

theorem keysNodup_setKey {κ β : Type} [DecidableEq κ] {m : List (κ × β)} {k : κ} {v : β}
    (h : keysNodup m) : keysNodup (setKey m k v) := by
  induction m with
  | nil => simp [setKey, keysNodup]
  | cons e rest ih =>
    simp only [keysNodup, List.map_cons, List.nodup_cons] at h
    by_cases he : e.1 = k
    · simp only [setKey, he, if_true, keysNodup, List.map_cons, List.nodup_cons]
      exact ⟨he ▸ h.1, h.2⟩
    · simp only [setKey, he, if_false, keysNodup, List.map_cons, List.nodup_cons]
      refine ⟨?_, ih h.2⟩
      intro hmem
      rcases mem_keys_setKey hmem with h' | h'
      · exact h.1 h'
      · exact he h'


/-! ## Subtable partitioner (`grouper`, `grouper2`)

Python's `grouper(iterable, n)` repeatedly pulls up to `n` items and yields
the chunk, yielding a trailing short chunk only when non-empty; for `n = 0`
the Python generator never terminates, so the embedding is only meaningful
for `n ≥ 1` (every use in the source passes `SUBTABLE_MAX_COUNT = 4000`).
`grouper2(iterable, n, key)` first splits into maximal runs of consecutive
items with equal keys (`itertools.groupby`) and chunks each run. -/

/-- Maximal entries per generated subtable (`SUBTABLE_MAX_COUNT`). -/
def SUBTABLE_MAX_COUNT : Nat := 4000

/-- Chunking of a list into consecutive pieces of size `n` with a final
short piece (`grouper`). -/
def grouper {α : Type} (n : Nat) : List α → List (List α)
  | [] => []
  | x :: xs =>
    if n = 0 then []
    else (x :: xs.take (n - 1)) :: grouper n (xs.drop (n - 1))
termination_by l => l.length
decreasing_by
  simp only [List.length_cons, List.length_drop]
  omega

/-- Splitting into maximal runs of consecutive elements with equal keys
(`itertools.groupby`). -/
def splitRuns {α κ : Type} [DecidableEq κ] (key : α → κ) : List α → List (List α)
  | [] => []
  | x :: xs =>
    (x :: xs.takeWhile (fun y => decide (key y = key x))) ::
      splitRuns key (xs.dropWhile (fun y => decide (key y = key x)))
termination_by l => l.length
decreasing_by
  simp only [List.length_cons]
  have := ((List.dropWhile_sublist (l := xs) (fun y => decide (key y = key x))).length_le)
  omega

/-- Run-then-chunk partitioning (`grouper2`). -/
def grouper2 {α κ : Type} [DecidableEq κ] (n : Nat) (key : α → κ) (xs : List α) :
    List (List α) :=
  ((splitRuns key xs).map (grouper n)).flatten

theorem grouper_join {α : Type} (n : Nat) (hn : 1 ≤ n) (xs : List α) :
    (grouper n xs).flatten = xs := by
  match xs with
  | [] => simp [grouper]
  | x :: rest =>
    rw [grouper]
    rw [if_neg (by omega)]
    rw [List.flatten_cons, grouper_join n hn (rest.drop (n - 1))]
    simp [List.take_append_drop]
termination_by xs.length
decreasing_by
  simp only [List.length_cons, List.length_drop]
  omega

theorem grouper_ne_nil {α : Type} (n : Nat) (xs : List α) {c : List α}
    (hc : c ∈ grouper n xs) : c ≠ [] := by
  match xs with
  | [] => simp [grouper] at hc
  | x :: rest =>
    rw [grouper] at hc
    by_cases hn : n = 0
    · rw [if_pos hn] at hc
      simp at hc
    · rw [if_neg hn] at hc
      rcases List.mem_cons.mp hc with hc | hc
      · subst hc
        simp
      · exact grouper_ne_nil n (rest.drop (n - 1)) hc
termination_by xs.length
decreasing_by
  simp only [List.length_cons, List.length_drop]
  omega

theorem grouper_length_le {α : Type} (n : Nat) (hn : 1 ≤ n) (xs : List α) {c : List α}
    (hc : c ∈ grouper n xs) : c.length ≤ n := by
  match xs with
  | [] => simp [grouper] at hc
  | x :: rest =>
    rw [grouper, if_neg (by omega)] at hc
    rcases List.mem_cons.mp hc with hc | hc
    · subst hc
      simp only [List.length_cons, List.length_take]
      omega
    · exact grouper_length_le n hn (rest.drop (n - 1)) hc
termination_by xs.length
decreasing_by
  simp only [List.length_cons, List.length_drop]
  omega

theorem grouper_full_of_ne_last {α : Type} (n : Nat) (hn : 1 ≤ n) (xs : List α) (i : Nat)
    {c : List α} (hc : (grouper n xs)[i]? = some c) (hi : i + 1 < (grouper n xs).length) :
    c.length = n := by
  match xs with
  | [] => simp [grouper] at hc
  | x :: rest =>
    rw [grouper, if_neg (by omega)] at hc hi
    match i with
    | 0 =>
      simp only [List.getElem?_cons_zero, Option.some.injEq] at hc
      subst hc
      simp only [List.length_cons] at hi
      have hne : grouper n (rest.drop (n - 1)) ≠ [] := by
        intro hemp
        rw [hemp] at hi
        simp at hi
      have hdrop : rest.drop (n - 1) ≠ [] := by
        intro hd
        rw [hd] at hne
        simp [grouper] at hne
      have hlen : n - 1 < rest.length := by
        by_contra hcon
        push_neg at hcon
        exact hdrop (List.drop_eq_nil_of_le hcon)
      simp only [List.length_cons, List.length_take]
      omega
    | j + 1 =>
      simp only [List.getElem?_cons_succ] at hc
      simp only [List.length_cons] at hi
      exact grouper_full_of_ne_last n hn (rest.drop (n - 1)) j hc (by omega)
termination_by xs.length
decreasing_by
  simp only [List.length_cons, List.length_drop]
  omega

theorem splitRuns_join {α κ : Type} [DecidableEq κ] (key : α → κ) (xs : List α) :
    (splitRuns key xs).flatten = xs := by
  match xs with
  | [] => simp [splitRuns]
  | x :: rest =>
    rw [splitRuns, List.flatten_cons,
      splitRuns_join key (rest.dropWhile (fun y => decide (key y = key x)))]
    simp [List.takeWhile_append_dropWhile]
termination_by xs.length
decreasing_by
  simp only [List.length_cons]
  have := ((List.dropWhile_sublist (l := rest) (fun y => decide (key y = key x))).length_le)
  omega

theorem splitRuns_key_eq {α κ : Type} [DecidableEq κ] (key : α → κ) (xs : List α)
    {r : List α} (hr : r ∈ splitRuns key xs) :
    ∀ a ∈ r, ∀ b ∈ r, key a = key b := by
  match xs with
  | [] => simp [splitRuns] at hr
  | x :: rest =>
    rw [splitRuns] at hr
    rcases List.mem_cons.mp hr with hr | hr
    · subst hr
      intro a ha b hb
      have hx : ∀ c ∈ x :: rest.takeWhile (fun y => decide (key y = key x)),
          key c = key x := by
        intro c hc
        rcases List.mem_cons.mp hc with hc | hc
        · rw [hc]
        · have := List.mem_takeWhile_imp hc
          simpa using this
      rw [hx a ha, hx b hb]
    · exact splitRuns_key_eq key (rest.dropWhile (fun y => decide (key y = key x))) hr
termination_by xs.length
decreasing_by
  simp only [List.length_cons]
  have := ((List.dropWhile_sublist (l := rest) (fun y => decide (key y = key x))).length_le)
  omega

theorem flatten_map_grouper {α : Type} (n : Nat) (hn : 1 ≤ n) (runs : List (List α)) :
    ((runs.map (grouper n)).flatten).flatten = runs.flatten := by
  induction runs with
  | nil => rfl
  | cons r rest ih =>
    simp only [List.map_cons, List.flatten_cons, List.flatten_append, ih]
    rw [grouper_join n hn r]

theorem grouper2_join {α κ : Type} [DecidableEq κ] (n : Nat) (hn : 1 ≤ n) (key : α → κ)
    (xs : List α) : (grouper2 n key xs).flatten = xs := by
  unfold grouper2
  rw [flatten_map_grouper n hn (splitRuns key xs), splitRuns_join key xs]

theorem grouper2_key_eq {α κ : Type} [DecidableEq κ] (n : Nat) (hn : 1 ≤ n) (key : α → κ)
    (xs : List α) {c : List α} (hc : c ∈ grouper2 n key xs) :
    ∀ a ∈ c, ∀ b ∈ c, key a = key b := by
  unfold grouper2 at hc
  rcases List.mem_flatten.mp hc with ⟨l, hl, hcl⟩
  rcases List.mem_map.mp hl with ⟨r, hr, hlr⟩
  subst hlr
  intro a ha b hb
  have hsub : ∀ y ∈ c, y ∈ r := by
    intro y hy
    have hj : y ∈ (grouper n r).flatten := List.mem_flatten.mpr ⟨c, hcl, hy⟩
    rwa [grouper_join n hn r] at hj
  exact splitRuns_key_eq key xs hr a (hsub a ha) b (hsub b hb)

/-! ## Font data model

The decoded font document (§3 of the design).  `GSUB`/`GPOS` lookups are
tagged variants matching the shapes `remove_glyph` and
`get_reachable_glyphs` branch on; any other tag is carried by an `other`
constructor (Python keeps the untouched record around, and the removal
code prints a message and leaves it unchanged). -/

/-- A `gsub_ligature` substitution rule `{from: [...], to: g}`.  (`from` is
a Lean keyword and `to` a reserved token, the fields are named `frm` and
`toGlyph`.) -/
structure LigRule where
  frm : List String
  toGlyph : String
deriving DecidableEq

/-- A GSUB lookup record, tagged by its `type` field. -/
inductive GSUBLookup where
  | gsub_single (subtables : List (List (String × String)))
  | gsub_alternate (subtables : List (List (String × List String)))
  | gsub_ligature (subtables : List (List LigRule))
  | gsub_multiple (subtables : List (List (String × List String)))
  | other (tag : String)
deriving DecidableEq

/-- A `gpos_pair` subtable: independent `first` and `second` maps. -/
structure PairSubtable where
  first : List (String × Payload)
  second : List (String × Payload)
deriving DecidableEq

/-- A `gpos_mark_to_base` subtable. -/
structure MarkBaseSubtable where
  marks : List (String × Payload)
  bases : List (String × Payload)
deriving DecidableEq

/-- A `gpos_mark_to_mark` subtable. -/
structure MarkMarkSubtable where
  marks : List (String × Payload)
  mark2s : List (String × Payload)
deriving DecidableEq

/-- A `gpos_mark_to_ligature` subtable: `bases` maps a ligature glyph to
per-component anchor maps whose keys are glyph names. -/
structure MarkLigSubtable where
  marks : List (String × Payload)
  bases : List (String × List (String × List (String × Payload)))
deriving DecidableEq

/-- A rule of a rule-list `gpos_context` subtable (`input`/`lookups` are
read with `.get(..., [])`). -/
structure GposContextRule where
  input : List String
  lookups : List String
deriving DecidableEq

/-- A `gpos_context` subtable in one of the three formats the code
distinguishes by shape, plus the unrecognized-shape fallback. -/
inductive GposContextSubtable where
  | rules (rules : List GposContextRule)
  | coveragePos (coverage : List String) (pos : List Payload)
  | classes (classes : List (List String))
  | otherFmt
deriving DecidableEq

/-- A rule of a `gpos_chaining` rule-list subtable. -/
structure GposChainRule where
  input : List String
  backtrack : List String
  lookahead : List String
  lookups : List String
deriving DecidableEq

/-- A `gpos_chaining` subtable (rule-list format or unrecognized). -/
inductive GposChainSubtable where
  | rules (rules : List GposChainRule)
  | otherFmt
deriving DecidableEq

/-- A GPOS lookup record, tagged by its `type` field. -/
inductive GPOSLookup where
  | gpos_single (subtables : List (List (String × Payload)))
  | gpos_pair (subtables : List PairSubtable)
  | gpos_mark_to_base (subtables : List MarkBaseSubtable)
  | gpos_mark_to_mark (subtables : List MarkMarkSubtable)
  | gpos_mark_to_ligature (subtables : List MarkLigSubtable)
  | gpos_cursive (subtables : List (List (String × Payload)))
  | gpos_context (subtables : List GposContextSubtable)
  | gpos_chaining (subtables : List GposChainSubtable)
  | other (tag : String)
deriving DecidableEq

/-- The GSUB (or GPOS) table skeleton: named lookups, features (feature
name to lookup-name list), languages (language-system name to its active
feature-name list) and the global lookup application order. -/
structure ScriptTable where
  lookups : List (String × GSUBLookup)
  features : List (String × List String)
  languages : List (String × List String)
  lookupOrder : List String
deriving DecidableEq

/-- The GPOS table: only its lookups are ever touched. -/
structure GPOSTable where
  lookups : List (String × GPOSLookup)
deriving DecidableEq

/-- One language system under `BASE`: its `BaseValues` list of records,
each record carrying a `BaseCoord` map keyed by glyph name. -/
structure BaseLangSys where
  baseValues : List (List (String × Payload))
deriving DecidableEq

/-- The part of the `BASE` table the code edits:
`HorizAxis.BaseTagList.BaseScriptList`, a map from script to language
systems.  (Parts of `BASE` outside this path are never touched and are
not modelled.) -/
abbrev BaseTable := List (String × List (String × BaseLangSys))

/-- A `glyf` record (`insert_empty_glyph` fills these three fields). -/
structure Glyph where
  advanceWidth : Nat
  advanceHeight : Nat
  verticalOrigin : Nat
deriving DecidableEq

/-- The decoded font document.  `cmap` maps codepoints to glyph names,
`cmap_rev` is the derived reverse index added by `load_font`. -/
structure Font where
  cmap : List (Nat × String)
  cmap_rev : List (String × List Nat)
  glyph_order : List String
  glyf : List (String × Glyph)
  gsub : ScriptTable
  gpos : GPOSTable
  base : Option BaseTable
deriving DecidableEq

/-- An opentype font can hold at most 65535 glyphs (`MAX_GLYPH_COUNT`). -/
def MAX_GLYPH_COUNT : Nat := 65535

/-- One step of `build_cmap_rev`: append the codepoint to its glyph's
list, creating the entry on first sight (`defaultdict(list)` + `append`). -/
def revStep (rev : List (String × List Nat)) (cg : Nat × String) :
    List (String × List Nat) :=
  match lookupA rev cg.2 with
  | some l => setKey rev cg.2 (l ++ [cg.1])
  | none => rev ++ [(cg.2, [cg.1])]

/-- Reverse mapping of the cmap table (`build_cmap_rev`): a `defaultdict`
filled by appending each codepoint to its glyph's list in cmap order. -/
def build_cmap_rev (cmap : List (Nat × String)) : List (String × List Nat) :=
  cmap.foldl revStep []

/-- Number of glyphs in a font (`get_glyph_count`). -/
def get_glyph_count (f : Font) : Nat :=
  f.glyph_order.length

/-- Insertion of a zero-width empty glyph (`insert_empty_glyph`). -/
def insert_empty_glyph (f : Font) (name : String) : Font :=
  { f with
    glyf := setKey f.glyf name ⟨0, 1000, 880⟩,
    glyph_order := f.glyph_order ++ [name] }

/-- Glyph name of a codepoint (`codepoint_to_glyph_name`); raises
`KeyError` when the codepoint is not in `cmap`. -/
def codepoint_to_glyph_name (f : Font) (c : Nat) : Except String String :=
  match lookupA f.cmap c with
  | some g => .ok g
  | none => .error "KeyError: cmap"

/-! ## Glyph removal (`remove_glyph` and helpers)

The per-variant removal mirrors the Python branches.  Python `list.remove`
drops only the first occurrence, hence `List.erase` below; `gsub_multiple`
and unknown tags fall into the `else` branch that prints a message and
leaves the lookup unchanged.  In the `gpos_context` coverage+pos format
Python raises `IndexError` when `pos` is shorter than the matched coverage
index; the embedding's `eraseIdx` is a no-op there (decoded fonts keep the
two lists parallel). -/

/-- Removal of a glyph from one GSUB lookup (the GSUB branch of
`remove_glyph`). -/
def removeGlyphGSUB (g : String) : GSUBLookup → GSUBLookup
  | .gsub_single sts =>
      .gsub_single (sts.map (fun st =>
        st.filter (fun kv => decide (¬(kv.1 = g ∨ kv.2 = g)))))
  | .gsub_alternate sts =>
      .gsub_alternate (sts.map (fun st =>
        (st.filter (fun kv => decide (kv.1 ≠ g))).map (fun kv => (kv.1, kv.2.erase g))))
  | .gsub_ligature sts =>
      .gsub_ligature (sts.map (fun st =>
        st.filter (fun s => decide (¬(g ∈ s.frm ∨ g = s.toGlyph)))))
  | .gsub_multiple sts => .gsub_multiple sts
  | .other tag => .other tag

/-- Removal of a glyph from one GPOS lookup (the GPOS branch of
`remove_glyph`). -/
def removeGlyphGPOS (g : String) : GPOSLookup → GPOSLookup
  | .gpos_single sts =>
      .gpos_single (sts.map (fun st => eraseKey st g))
  | .gpos_pair sts =>
      .gpos_pair (sts.map (fun st =>
        ⟨eraseKey st.first g, eraseKey st.second g⟩))
  | .gpos_mark_to_base sts =>
      .gpos_mark_to_base (sts.map (fun st =>
        ⟨eraseKey st.marks g, eraseKey st.bases g⟩))
  | .gpos_mark_to_mark sts =>
      .gpos_mark_to_mark (sts.map (fun st =>
        ⟨eraseKey st.marks g, eraseKey st.mark2s g⟩))
  | .gpos_mark_to_ligature sts =>
      .gpos_mark_to_ligature (sts.map (fun st =>
        ⟨eraseKey st.marks g,
         st.bases.map (fun b =>
           (b.1, b.2.map (fun comp => (comp.1, eraseKey comp.2 g))))⟩))
  | .gpos_cursive sts =>
      .gpos_cursive (sts.map (fun st => eraseKey st g))
  | .gpos_context sts =>
      .gpos_context (sts.map (fun st =>
        match st with
        | .rules rules =>
            .rules (rules.filter (fun r =>
              decide (¬(g ∈ r.input ∨ g ∈ r.lookups))))
        | .coveragePos coverage pos =>
            if g ∈ coverage then
              let i := coverage.indexOf g
              .coveragePos (coverage.eraseIdx i) (pos.eraseIdx i)
            else .coveragePos coverage pos
        | .classes cls => .classes (cls.map (fun cl => cl.erase g))
        | .otherFmt => .otherFmt))
  | .gpos_chaining sts =>
      .gpos_chaining (sts.map (fun st =>
        match st with
        | .rules rules =>
            .rules (rules.filter (fun r =>
              decide (¬(g ∈ r.input ∨ g ∈ r.backtrack ∨ g ∈ r.lookahead ∨ g ∈ r.lookups))))
        | .otherFmt => .otherFmt))
  | .other tag => .other tag

/-- Removal of a glyph from the BASE coordinate maps (the BASE branch of
`remove_glyph`). -/
def removeGlyphBASE (g : String) (b : BaseTable) : BaseTable :=
  b.map (fun script =>
    (script.1, script.2.map (fun lang =>
      (lang.1, ⟨lang.2.baseValues.map (fun record => eraseKey record g)⟩))))

/-- Removal of a glyph from every table except `cmap`/`cmap_rev`
(`remove_glyph`).  `glyph_order.remove` drops the first occurrence and the
surrounding `try/except ValueError` makes it a no-op when absent, which is
exactly `List.erase`. -/
def remove_glyph (f : Font) (g : String) : Font :=
  { f with
    glyph_order := f.glyph_order.erase g,
    glyf := eraseKey f.glyf g,
    gsub := { f.gsub with
      lookups := f.gsub.lookups.map (fun nl => (nl.1, removeGlyphGSUB g nl.2)) },
    gpos := { f.gpos with
      lookups := f.gpos.lookups.map (fun nl => (nl.1, removeGlyphGPOS g nl.2)) },
    base := f.base.map (removeGlyphBASE g) }

/-! ## Codepoint removal (`disassociate_codepoint_and_glyph_name`,
`remove_codepoint`, `remove_codepoints`,
`remove_associated_codepoints_of_glyph`) -/

/-- Disassociation of a present codepoint from its glyph
(`disassociate_codepoint_and_glyph_name`): deletes the codepoint from
`cmap` (`KeyError` when absent), then from the glyph's `cmap_rev` entry;
returns whether the codepoint was the only one of the glyph.  The
`defaultdict` read of a missing glyph yields `[]`, making the final
`list.remove` raise `ValueError`. -/
def disassociate_codepoint_and_glyph_name (f : Font) (c : Nat) (g : String) :
    Except String (Font × Bool) :=
  if ¬ keyMem f.cmap c then .error "KeyError: cmap" else
  let cmap := eraseKey f.cmap c
  let cur := getD f.cmap_rev g []
  if cur = [c] then
    .ok ({ f with cmap := cmap, cmap_rev := eraseKey f.cmap_rev g }, true)
  else if c ∈ cur then
    .ok ({ f with cmap := cmap, cmap_rev := setKey f.cmap_rev g (cur.erase c) }, false)
  else .error "ValueError: list.remove(x): x not in list"

/-- Removal of a codepoint from a font (`remove_codepoint`): a no-op when
the codepoint is absent from `cmap` or maps to a falsy (empty) glyph name,
otherwise disassociates and cascades into `remove_glyph` when the
codepoint was the glyph's last one. -/
def remove_codepoint (f : Font) (c : Nat) : Except String Font :=
  match lookupA f.cmap c with
  | none => .ok f
  | some g =>
    if g = "" then .ok f
    else do
      let (f', isOnly) ← disassociate_codepoint_and_glyph_name f c g
      pure (if isOnly then remove_glyph f' g else f')

/-- Removal of a sequence of codepoints (`remove_codepoints`). -/
def remove_codepoints (f : Font) (cs : List Nat) : Except String Font :=
  cs.foldlM remove_codepoint f

/-- Removal of every codepoint mapping to a glyph
(`remove_associated_codepoints_of_glyph`): deletes each codepoint listed
in the glyph's reverse entry from `cmap` (`KeyError` when one is missing)
and drops the reverse entry (`defaultdict` access followed by `del`). -/
def remove_associated_codepoints_of_glyph (f : Font) (g : String) :
    Except String Font := do
  let cps := getD f.cmap_rev g []
  let cmap ← cps.foldlM
    (fun m c => if keyMem m c then .ok (eraseKey m c) else .error "KeyError: cmap")
    f.cmap
  pure { f with cmap := cmap, cmap_rev := eraseKey f.cmap_rev g }

/-! ## Reachability analysis (`get_reachable_glyphs`, `clean_unused_glyphs`)

`get_reachable_glyphs` starts from `{'.notdef', '.null'}`, and for every
glyph targeted by `cmap` adds the glyph itself plus the targets one
substitution step away; a lookup of any type other than the three handled
ones raises `NotImplementedError` (so the error can only surface when
`cmap` is non-empty).  The Python set is embedded as a list used up to
membership. -/

/-- Targets contributed by one `gsub_single` subtable for a source glyph. -/
def singleTargets (st : List (String × String)) (g : String) : List String :=
  st.filterMap (fun kv => if kv.1 = g then some kv.2 else none)

/-- Targets contributed by one `gsub_alternate` subtable for a source
glyph (the full alternate list of a matching key). -/
def altTargets (st : List (String × List String)) (g : String) : List String :=
  (st.filterMap (fun kv => if kv.1 = g then some kv.2 else none)).flatten

/-- Targets contributed by one `gsub_ligature` subtable for a source glyph
(outputs of rules whose input list contains the glyph). -/
def ligTargets (st : List LigRule) (g : String) : List String :=
  st.filterMap (fun s => if g ∈ s.frm then some s.toGlyph else none)

/-- Whether a GSUB lookup has one of the three types the reachability
analysis implements. -/
def gsubOk : GSUBLookup → Bool
  | .gsub_single _ => true
  | .gsub_alternate _ => true
  | .gsub_ligature _ => true
  | _ => false

/-- One-step targets of a glyph through a single GSUB lookup (pure part). -/
def lookupTargetsP (g : String) : GSUBLookup → List String
  | .gsub_single sts => (sts.map (fun st => singleTargets st g)).flatten
  | .gsub_alternate sts => (sts.map (fun st => altTargets st g)).flatten
  | .gsub_ligature sts => (sts.map (fun st => ligTargets st g)).flatten
  | _ => []

/-- One-step targets of a glyph through a single GSUB lookup, raising
`NotImplementedError` on an unknown lookup type. -/
def lookupReachTargets (g : String) (lk : GSUBLookup) : Except String (List String) :=
  if gsubOk lk then .ok (lookupTargetsP g lk)
  else .error "NotImplementedError: Unknown GSUB lookup type"

/-- One-step targets of a glyph through all GSUB lookups of a font. -/
def oneStep (lks : List (String × GSUBLookup)) (g : String) : List String :=
  (lks.map (fun nl => lookupTargetsP g nl.2)).flatten

/-- All reachable glyphs of a font (`get_reachable_glyphs`). -/
def get_reachable_glyphs (f : Font) : Except String (List String) :=
  (f.cmap.map (·.2)).foldlM
    (fun acc g => do
      let extra ← f.gsub.lookups.foldlM
        (fun acc2 nl => do
          let ts ← lookupReachTargets g nl.2
          pure (acc2 ++ ts))
        []
      pure (acc ++ [g] ++ extra))
    [".notdef", ".null"]

/-- One sweep step of `clean_unused_glyphs`: cascade the codepoints of an
unreachable glyph, then remove the glyph everywhere. -/
def sweepGlyph (f : Font) (g : String) : Except String Font := do
  let f' ← remove_associated_codepoints_of_glyph f g
  pure (remove_glyph f' g)

/-- Removal of all unreachable glyphs (`clean_unused_glyphs`).  Python
iterates the set `all_glyphs - reachable_glyphs` (computed once, before
any mutation) in unspecified set order and with duplicates collapsed; the
embedding fixes `glyph_order` order, which agrees with the code on the
duplicate-free glyph orders of decoded fonts. -/
def clean_unused_glyphs (f : Font) : Except String Font := do
  let r ← get_reachable_glyphs f
  (f.glyph_order.filter (fun g => decide (g ∉ r))).foldlM sweepGlyph f

/-! ## Lookup assembler (`insert_empty_feature`, `create_word2pseu_table`,
`create_char2char_table`, `create_pseu2word_table`) -/

/-- Registration of a new empty feature attached to every language system
(`insert_empty_feature`). -/
def insert_empty_feature (f : Font) (feature : String) : Font :=
  { f with gsub := { f.gsub with
      languages := f.gsub.languages.map (fun kv => (kv.1, kv.2 ++ [feature])),
      features := setKey f.gsub.features feature [] } }

/-- The `word2pseu` ligature subtables produced from word conversions:
`grouper2` keyed on source-sequence length, each chunk becoming one
subtable of `{from, to}` rules. -/
def word2pseuSubtables (conversions : List (List String × String)) :
    List (List LigRule) :=
  (grouper2 SUBTABLE_MAX_COUNT (fun item => item.1.length) conversions).map
    (fun subtable => subtable.map (fun item => ⟨item.1, item.2⟩))

/-- Synthesis of the word-to-placeholder `gsub_ligature` lookup
(`create_word2pseu_table`): registers the `word2pseu` lookup under the
feature and appends it to the lookup order.  (The Python
`features[feature_name].append` requires the feature to exist — it is
created by `insert_empty_feature` in the pipeline; the embedding reads the
current list with an empty default.) -/
def create_word2pseu_table (f : Font) (feature : String)
    (conversions : List (List String × String)) : Font :=
  { f with gsub := { f.gsub with
      features := setKey f.gsub.features feature
        (getD f.gsub.features feature [] ++ ["word2pseu"]),
      lookups := setKey f.gsub.lookups "word2pseu"
        (.gsub_ligature (word2pseuSubtables conversions)),
      lookupOrder := f.gsub.lookupOrder ++ ["word2pseu"] } }

/-- Synthesis of the character-to-character `gsub_single` lookup
(`create_char2char_table`). -/
def create_char2char_table (f : Font) (feature : String)
    (conversions : List (String × String)) : Font :=
  { f with gsub := { f.gsub with
      features := setKey f.gsub.features feature
        (getD f.gsub.features feature [] ++ ["char2char"]),
      lookups := setKey f.gsub.lookups "char2char"
        (.gsub_single (grouper SUBTABLE_MAX_COUNT conversions)),
      lookupOrder := f.gsub.lookupOrder ++ ["char2char"] } }

/-- Synthesis of the placeholder-to-word `gsub_multiple` lookup
(`create_pseu2word_table`): `grouper2` keyed on target-sequence length. -/
def create_pseu2word_table (f : Font) (feature : String)
    (conversions : List (String × List String)) : Font :=
  { f with gsub := { f.gsub with
      features := setKey f.gsub.features feature
        (getD f.gsub.features feature [] ++ ["pseu2word"]),
      lookups := setKey f.gsub.lookups "pseu2word"
        (.gsub_multiple (grouper2 SUBTABLE_MAX_COUNT (fun item => item.2.length) conversions)),
      lookupOrder := f.gsub.lookupOrder ++ ["pseu2word"] } }

/-! ## Build pipeline core (`build_font`)

`build_font` additionally performs file IO: decoding/encoding through the
external `otfccdump`/`otfccbuild` processes, reading the conversion
dictionaries and the Han codepoint allow-list, and the name-table
metadata patch.  Those inputs are parameters of the embedded core
(`keep` is the union of the Han and non-Han allow-lists; `entries_char` /
`entries_word` are the coverage-filtered conversion tables), and the core
returns the final font object handed to the encoder instead of writing a
file.  The `assert available_glyph_count >= len(entries_word)` is the
`.error "AssertionError..."` branch. -/

/-- Uppercase hexadecimal digit. -/
def hexDigit (n : Nat) : Char :=
  if n < 10 then Char.ofNat (48 + n) else Char.ofNat (55 + n)

/-- Uppercase hexadecimal rendering of a natural number (Python `'%X'`). -/
def toHexUpper (n : Nat) : String :=
  if n = 0 then "0" else String.mk (hexAux n)
where
  /-- Digit list of `n` in uppercase hexadecimal, most significant first. -/
  hexAux : Nat → List Char
    | 0 => []
    | n + 1 => hexAux ((n + 1) / 16) ++ [hexDigit ((n + 1) % 16)]
  decreasing_by
    have : (n + 1) / 16 < n + 1 := Nat.div_lt_self (by omega) (by omega)
    omega

/-- The word-entry loop of `build_font`: for each word entry allocate one
placeholder glyph `pseu%X`, translate both codepoint sequences to glyph
names, and accumulate the two mapping tables. -/
def wordEntryLoop (f : Font) (entries_word : List (List Nat × List Nat)) :
    Except String (Font × List (List String × String) × List (String × List String)) :=
  (entries_word.enum).foldlM
    (fun acc ie => do
      let (f, w2p, p2w) := acc
      let pseudo := "pseu" ++ toHexUpper ie.1
      let gk ← ie.2.1.mapM (codepoint_to_glyph_name f)
      let gv ← ie.2.2.mapM (codepoint_to_glyph_name f)
      pure (insert_empty_glyph f pseudo, w2p ++ [(gk, pseudo)], p2w ++ [(pseudo, gv)]))
    (f, [], [])

/-- The embedded core of `build_font` after decode: prune codepoints
outside the allow-list, sweep unreachable glyphs, check the glyph budget,
then build and register the three conversion lookups.  Metadata patching
and encoding are external-IO steps outside the embedding. -/
def build_font_core (font : Font) (keep : List Nat)
    (entries_char : List (Nat × Nat)) (entries_word : List (List Nat × List Nat)) :
    Except String Font := do
  let font ← remove_codepoints font
    ((font.cmap.map (·.1)).filter (fun c => decide (c ∉ keep)))
  let font ← clean_unused_glyphs font
  if (MAX_GLYPH_COUNT : Int) - get_glyph_count font < entries_word.length then
    .error "AssertionError: available_glyph_count >= len(entries_word)"
  else do
    let (font, word2pseu_table, pseu2word_table) ← wordEntryLoop font entries_word
    let char2char_table ← entries_char.mapM
      (fun kv => do
        let gk ← codepoint_to_glyph_name font kv.1
        let gv ← codepoint_to_glyph_name font kv.2
        pure (gk, gv))
    let feature_name := "liga_s2t"
    let font := insert_empty_feature font feature_name
    let font := create_word2pseu_table font feature_name word2pseu_table
    let font := create_char2char_table font feature_name char2char_table
    let font := create_pseu2word_table font feature_name pseu2word_table
    pure font

/-- Reduction of an `Except` bind on a success value. -/
@[simp] theorem exceptBind_ok {ε α β : Type} (x : α) (g : α → Except ε β) :
    (Except.ok x >>= g : Except ε β) = g x := rfl

/-- Unfolding of `pure` in the `Except` monad. -/
@[simp] theorem exceptPure_eq {ε α : Type} (x : α) :
    (pure x : Except ε α) = .ok x := rfl

/-! ## Concrete fonts used by witnesses and counterexamples -/

/-- The empty script table. -/
def emptyScript : ScriptTable := ⟨[], [], [], []⟩

/-- A font with no glyphs and no tables, used as a neutral carrier. -/
def F0 : Font :=
  { cmap := [], cmap_rev := [], glyph_order := [], glyf := [],
    gsub := emptyScript, gpos := ⟨[]⟩, base := none }

/-! ## Claim C5: partitioning correctness of `grouper` -/

/-- C5: for every finite list and every `limit ≥ 1`, `grouper` yields
groups that concatenate back to the input in order, every group is
non-empty of size at most `limit`, and every group other than the last
has size exactly `limit`. -/
theorem claim_C5_grouper_partitioning {α : Type} (n : Nat) (hn : 1 ≤ n) (xs : List α) :
    (grouper n xs).flatten = xs ∧
    (∀ c ∈ grouper n xs, c ≠ [] ∧ c.length ≤ n) ∧
    (∀ i c, (grouper n xs)[i]? = some c → i + 1 < (grouper n xs).length →
      c.length = n) :=
  ⟨grouper_join n hn xs,
   fun _ hc => ⟨grouper_ne_nil n xs hc, grouper_length_le n hn xs hc⟩,
   fun i _ hc hi => grouper_full_of_ne_last n hn xs i hc hi⟩

/-- C5 witness: the docstring example `grouper([1,2,3,4,5], n=2)`. -/
theorem claim_C5_grouper_partitioning_witness :
    (grouper 2 [1, 2, 3, 4, 5]).flatten = [1, 2, 3, 4, 5] ∧
    (∀ c ∈ grouper 2 [1, 2, 3, 4, 5], c ≠ [] ∧ c.length ≤ 2) ∧
    (∀ i c, (grouper 2 [1, 2, 3, 4, 5])[i]? = some c →
      i + 1 < (grouper 2 [1, 2, 3, 4, 5]).length → c.length = 2) :=
  claim_C5_grouper_partitioning 2 (by decide) [1, 2, 3, 4, 5]

/-! ## Claim C6: `grouper2` never mixes key values in one group -/

/-- C6: for every finite list, every `limit ≥ 1` and every key function,
no group produced by `grouper2` contains two items with different keys. -/
theorem claim_C6_grouper2_no_key_mixing {α κ : Type} [DecidableEq κ] (n : Nat)
    (hn : 1 ≤ n) (key : α → κ) (xs : List α) :
    ∀ c ∈ grouper2 n key xs, ∀ a ∈ c, ∀ b ∈ c, key a = key b :=
  fun _ hc => grouper2_key_eq n hn key xs hc

/-- C6 witness: grouping `[5, 12, 13, 21]` by tens digit with `n = 3`
(where the size limit alone would put `5` and `12` together) yields the
chunk `[12, 13]`; the theorem applied to that chunk and its two members. -/
theorem claim_C6_grouper2_no_key_mixing_witness : (12 : Nat) / 10 = 13 / 10 :=
  claim_C6_grouper2_no_key_mixing 3 (by decide) (fun n : Nat => n / 10) [5, 12, 13, 21]
    [12, 13] (by simp [grouper2, splitRuns, grouper]) 12 (by decide) 13 (by decide)

/-! ## Claim C9: longest-match ordering of the `word2pseu` lookup -/

/-- C9: for conversions sorted longest-source-first, the synthesized
`word2pseu` ligature lookup keeps the rule order (the concatenation of its
subtables is the conversion list itself), so every rule of a longer source
sits in an earlier or equal subtable than every rule of a shorter one. -/
theorem claim_C9_word2pseu_longest_first (f : Font) (feature : String)
    (conversions : List (List String × String))
    (hsorted : conversions.Pairwise (fun a b => b.1.length ≤ a.1.length)) :
    lookupA (create_word2pseu_table f feature conversions).gsub.lookups "word2pseu"
      = some (.gsub_ligature (word2pseuSubtables conversions)) ∧
    (word2pseuSubtables conversions).flatten
      = conversions.map (fun item => ⟨item.1, item.2⟩) ∧
    (word2pseuSubtables conversions).Pairwise
      (fun s t => ∀ r ∈ s, ∀ r' ∈ t, r'.frm.length ≤ r.frm.length) := by
  have hflat : (word2pseuSubtables conversions).flatten
      = conversions.map (fun item => ⟨item.1, item.2⟩) := by
    unfold word2pseuSubtables
    rw [← List.map_flatten]
    rw [grouper2_join SUBTABLE_MAX_COUNT (by decide) _ conversions]
  refine ⟨lookupA_setKey_self _ _ _, hflat, ?_⟩
  have hp : (word2pseuSubtables conversions).flatten.Pairwise
      (fun r r' : LigRule => r'.frm.length ≤ r.frm.length) := by
    rw [hflat]
    exact List.pairwise_map.mpr hsorted
  exact (List.pairwise_flatten.mp hp).2

/-- C9 witness: the spec's example `[("abc","X"), ("ab","Y")]` as glyph
sequences, already sorted longest-first. -/
theorem claim_C9_word2pseu_longest_first_witness :
    lookupA (create_word2pseu_table F0 "liga_s2t"
        [(["a", "b", "c"], "X"), (["a", "b"], "Y")]).gsub.lookups "word2pseu"
      = some (.gsub_ligature
          (word2pseuSubtables [(["a", "b", "c"], "X"), (["a", "b"], "Y")])) ∧
    (word2pseuSubtables [(["a", "b", "c"], "X"), (["a", "b"], "Y")]).flatten
      = [⟨["a", "b", "c"], "X"⟩, ⟨["a", "b"], "Y"⟩] ∧
    (word2pseuSubtables [(["a", "b", "c"], "X"), (["a", "b"], "Y")]).Pairwise
      (fun s t => ∀ r ∈ s, ∀ r' ∈ t, r'.frm.length ≤ r.frm.length) :=
  claim_C9_word2pseu_longest_first F0 "liga_s2t"
    [(["a", "b", "c"], "X"), (["a", "b"], "Y")] (by decide)

/-! ## Claim C7: glyph-budget check aborts the build -/

/-- C7: whenever the glyph count left after pruning plus the number of
word entries exceeds `MAX_GLYPH_COUNT`, the build core fails with the
assertion error before any placeholder glyph is inserted and before the
lookup-assembly (and eventual encode) stage, producing no font. -/
theorem claim_C7_glyph_budget_abort (font : Font) (keep : List Nat)
    (entries_char : List (Nat × Nat)) (entries_word : List (List Nat × List Nat))
    (f₂ f₃ : Font)
    (hprune : remove_codepoints font
      ((font.cmap.map (·.1)).filter (fun c => decide (c ∉ keep))) = .ok f₂)
    (hclean : clean_unused_glyphs f₂ = .ok f₃)
    (hover : MAX_GLYPH_COUNT < get_glyph_count f₃ + entries_word.length) :
    build_font_core font keep entries_char entries_word
      = .error "AssertionError: available_glyph_count >= len(entries_word)" := by
  unfold build_font_core
  rw [hprune, exceptBind_ok, hclean, exceptBind_ok, if_pos]
  have h2 : MAX_GLYPH_COUNT = 65535 := rfl
  rw [show (MAX_GLYPH_COUNT : Int) = 65535 from rfl]
  rw [h2] at hover
  omega

/-- C7 witness: an empty font with 65536 word entries trips the budget. -/
theorem claim_C7_glyph_budget_abort_witness :
    build_font_core F0 [] [] (List.replicate 65536 ([], []))
      = .error "AssertionError: available_glyph_count >= len(entries_word)" :=
  claim_C7_glyph_budget_abort F0 [] [] (List.replicate 65536 ([], [])) F0 F0
    rfl rfl
    (by
      rw [List.length_replicate]
      norm_num [get_glyph_count, F0, MAX_GLYPH_COUNT])

/-! ## The reverse-index invariant -/

/-- The reverse entry of a glyph (`defaultdict` read: `[]` when absent). -/
def revGet (f : Font) (g : String) : List Nat :=
  getD f.cmap_rev g []

/-- The glyphs directly targeted by `cmap`. -/
def cmapTargets (f : Font) : List String :=
  f.cmap.map (·.2)

/-- Well-formedness of a forward map together with a reverse map:
duplicate-free keys, duplicate-free reverse entries, and the
reverse-index invariant proper — a codepoint maps to a glyph exactly when
it is listed in that glyph's reverse entry.  (The forward direction
entails that no other glyph's entry can contain the codepoint, since
`lookupA` is single-valued.) -/
def MapsInv (cmap : List (Nat × String)) (rev : List (String × List Nat)) : Prop :=
  keysNodup cmap ∧ keysNodup rev ∧ (∀ e ∈ rev, e.2.Nodup) ∧
  (∀ c g, lookupA cmap c = some g ↔ c ∈ getD rev g [])

/-- Well-formedness of a font's two character maps. -/
def FontInv (f : Font) : Prop :=
  MapsInv f.cmap f.cmap_rev

theorem lookupA_append_left {κ β : Type} [DecidableEq κ] {xs : List (κ × β)}
    (ys : List (κ × β)) {k : κ} {v : β} (h : lookupA xs k = some v) :
    lookupA (xs ++ ys) k = some v := by
  induction xs with
  | nil => simp at h
  | cons e rest ih =>
    by_cases he : e.1 = k
    · simpa [lookupA_cons, he] using h
    · rw [List.cons_append, lookupA_cons, if_neg he]
      exact ih (by simpa [lookupA_cons, he] using h)

theorem lookupA_append_right {κ β : Type} [DecidableEq κ] {xs : List (κ × β)}
    (ys : List (κ × β)) {k : κ} (h : lookupA xs k = none) :
    lookupA (xs ++ ys) k = lookupA ys k := by
  induction xs with
  | nil => rfl
  | cons e rest ih =>
    by_cases he : e.1 = k
    · simp [lookupA_cons, he] at h
    · rw [List.cons_append, lookupA_cons, if_neg he]
      exact ih (by simpa [lookupA_cons, he] using h)

theorem mem_setKey {κ β : Type} [DecidableEq κ] {m : List (κ × β)} {k : κ} {v : β}
    {e : κ × β} (h : e ∈ setKey m k v) : e = (k, v) ∨ e ∈ m := by
  induction m with
  | nil => simpa [setKey] using h
  | cons e' rest ih =>
    by_cases he : e'.1 = k
    · rw [setKey, if_pos he] at h
      rcases List.mem_cons.mp h with h | h
      · exact Or.inl h
      · exact Or.inr (List.mem_cons_of_mem _ h)
    · rw [setKey, if_neg he] at h
      rcases List.mem_cons.mp h with h | h
      · exact Or.inr (h ▸ List.mem_cons_self _ _)
      · rcases ih h with h' | h'
        · exact Or.inl h'
        · exact Or.inr (List.mem_cons_of_mem _ h')

/-- Invariant carried while folding `revStep` over the cmap entries. -/
theorem build_cmap_rev_aux (todo : List (Nat × String)) (done : List (Nat × String))
    (rev : List (String × List Nat))
    (hnd : keysNodup (done ++ todo))
    (h1 : keysNodup rev)
    (h2 : ∀ e ∈ rev, e.2.Nodup)
    (h3 : ∀ e ∈ done, e.1 ∈ getD rev e.2 [])
    (h4 : ∀ e ∈ rev, ∀ c ∈ e.2, lookupA done c = some e.1) :
    keysNodup (todo.foldl revStep rev) ∧
    (∀ e ∈ todo.foldl revStep rev, e.2.Nodup) ∧
    (∀ e ∈ done ++ todo, e.1 ∈ getD (todo.foldl revStep rev) e.2 []) ∧
    (∀ e ∈ todo.foldl revStep rev, ∀ c ∈ e.2, lookupA (done ++ todo) c = some e.1) := by
  induction todo generalizing done rev with
  | nil =>
    refine ⟨h1, h2, ?_, ?_⟩
    · intro e he
      exact h3 e (by simpa using he)
    · intro e he c hc
      simpa using h4 e he c hc
  | cons cg todo ih =>
    obtain ⟨c, g⟩ := cg
    have hckeys : c ∉ (done.map (·.1)) ∧ c ∉ (todo.map (·.1)) := by
      unfold keysNodup at hnd
      rw [List.map_append] at hnd
      rcases List.nodup_append.mp hnd with ⟨-, hnd2, hdisj⟩
      simp only [List.map_cons, List.nodup_cons] at hnd2
      constructor
      · intro hmem
        exact hdisj hmem (List.mem_cons_self _ _)
      · exact hnd2.1
    have hcnone : lookupA done c = none :=
      lookupA_eq_none_iff.mpr hckeys.1
    have hassoc : done ++ (c, g) :: todo = (done ++ [(c, g)]) ++ todo := by
      simp
    have hnd' : keysNodup ((done ++ [(c, g)]) ++ todo) := by
      rw [← hassoc]
      exact hnd
    -- The four invariant components for the updated reverse map.
    have step1 : keysNodup (revStep rev (c, g)) := by
      unfold revStep
      cases hl : lookupA rev g with
      | some l => exact keysNodup_setKey h1
      | none =>
        unfold keysNodup at h1 ⊢
        rw [List.map_append]
        rw [List.nodup_append]
        refine ⟨h1, by simp, ?_⟩
        intro a ha hb
        simp only [List.map_cons, List.map_nil, List.mem_singleton] at hb
        subst hb
        exact (lookupA_eq_none_iff.mp hl) ha
    have step2 : ∀ e ∈ revStep rev (c, g), e.2.Nodup := by
      unfold revStep
      cases hl : lookupA rev g with
      | some l =>
        intro e he
        rcases mem_setKey he with he' | he'
        · subst he'
          have hlmem : (g, l) ∈ rev := lookupA_mem hl
          have hln : l.Nodup := h2 (g, l) hlmem
          have hcl : c ∉ l := by
            intro hcl
            have := h4 (g, l) hlmem c hcl
            rw [hcnone] at this
            exact Option.noConfusion this
          simpa [List.nodup_append] using ⟨hln, hcl⟩
        · exact h2 e he'
      | none =>
        intro e he
        rcases List.mem_append.mp he with he' | he'
        · exact h2 e he'
        · simp only [List.mem_singleton] at he'
          subst he'
          simp
    have step3 : ∀ e ∈ done ++ [(c, g)], e.1 ∈ getD (revStep rev (c, g)) e.2 [] := by
      unfold revStep
      cases hl : lookupA rev g with
      | some l =>
        intro e he
        rcases List.mem_append.mp he with he' | he'
        · have hold := h3 e he'
          by_cases heg : e.2 = g
          · rw [heg] at hold ⊢
            unfold getD at hold ⊢
            rw [lookupA_setKey_self]
            rw [hl] at hold
            simp only [Option.getD_some] at hold ⊢
            exact List.mem_append_left _ hold
          · unfold getD at hold ⊢
            rw [lookupA_setKey_ne _ _ heg]
            exact hold
        · simp only [List.mem_singleton] at he'
          subst he'
          unfold getD
          rw [lookupA_setKey_self]
          simp
      | none =>
        intro e he
        rcases List.mem_append.mp he with he' | he'
        · have hold := h3 e he'
          unfold getD at hold ⊢
          cases hle : lookupA rev e.2 with
          | some l' =>
            rw [lookupA_append_left _ hle]
            rw [hle] at hold
            exact hold
          | none =>
            rw [hle] at hold
            simp at hold
        · simp only [List.mem_singleton] at he'
          subst he'
          unfold getD
          rw [lookupA_append_right _ hl]
          simp [lookupA_cons]
    have step4 : ∀ e ∈ revStep rev (c, g), ∀ c' ∈ e.2,
        lookupA (done ++ [(c, g)]) c' = some e.1 := by
      unfold revStep
      cases hl : lookupA rev g with
      | some l =>
        intro e he c' hc'
        rcases mem_setKey he with he' | he'
        · subst he'
          simp only at hc'
          rcases List.mem_append.mp hc' with hc'' | hc''
          · exact lookupA_append_left _ (h4 (g, l) (lookupA_mem hl) c' hc'')
          · simp only [List.mem_singleton] at hc''
            subst hc''
            rw [lookupA_append_right _ hcnone]
            simp [lookupA_cons]
        · exact lookupA_append_left _ (h4 e he' c' hc')
      | none =>
        intro e he c' hc'
        rcases List.mem_append.mp he with he' | he'
        · exact lookupA_append_left _ (h4 e he' c' hc')
        · simp only [List.mem_singleton] at he'
          subst he'
          simp only [List.mem_singleton] at hc'
          subst hc'
          rw [lookupA_append_right _ hcnone]
          simp [lookupA_cons]
    have hres := ih (done ++ [(c, g)]) (revStep rev (c, g)) hnd' step1 step2 step3 step4
    rw [List.foldl_cons, hassoc]
    exact hres

/-- A font whose `cmap_rev` is freshly `build_cmap_rev`-derived from a
duplicate-free `cmap` satisfies the full invariant. -/
theorem fontInv_of_build (f : Font) (hnd : keysNodup f.cmap)
    (hrev : f.cmap_rev = build_cmap_rev f.cmap) : FontInv f := by
  have h := build_cmap_rev_aux f.cmap [] [] (by simpa using hnd)
    (by simp [keysNodup]) (by simp) (by simp) (by simp)
  rw [List.nil_append] at h
  obtain ⟨h1, h2, h3, h4⟩ := h
  have hb : build_cmap_rev f.cmap = f.cmap.foldl revStep [] := rfl
  rw [← hb] at h1 h2 h3 h4
  rw [← hrev] at h1 h2 h3 h4
  refine ⟨hnd, h1, h2, ?_⟩
  intro c g
  constructor
  · intro hc
    exact h3 (c, g) (lookupA_mem hc)
  · intro hc
    unfold getD at hc
    cases hl : lookupA f.cmap_rev g with
    | none => rw [hl] at hc; simp at hc
    | some l =>
      rw [hl] at hc
      simp only [Option.getD_some] at hc
      exact h4 (g, l) (lookupA_mem hl) c hc

instance {κ β : Type} [DecidableEq κ] (m : List (κ × β)) : Decidable (keysNodup m) :=
  List.nodupDecidable _

@[simp] theorem getD_eraseKey_self {κ β : Type} [DecidableEq κ] (m : List (κ × β))
    (k : κ) (d : β) : getD (eraseKey m k) k d = d := by
  unfold getD
  rw [lookupA_eraseKey_self]
  rfl

theorem getD_eraseKey_ne {κ β : Type} [DecidableEq κ] (m : List (κ × β)) {k k' : κ}
    (h : k' ≠ k) (d : β) : getD (eraseKey m k) k' d = getD m k' d := by
  unfold getD
  rw [lookupA_eraseKey_ne m h]

@[simp] theorem getD_setKey_self {κ β : Type} [DecidableEq κ] (m : List (κ × β))
    (k : κ) (v d : β) : getD (setKey m k v) k d = v := by
  unfold getD
  rw [lookupA_setKey_self]
  rfl

theorem getD_setKey_ne {κ β : Type} [DecidableEq κ] (m : List (κ × β)) {k k' : κ}
    (h : k' ≠ k) (v d : β) : getD (setKey m k v) k' d = getD m k' d := by
  unfold getD
  rw [lookupA_setKey_ne m v h]

@[simp] theorem remove_glyph_cmap (f : Font) (g : String) :
    (remove_glyph f g).cmap = f.cmap := rfl

@[simp] theorem remove_glyph_cmap_rev (f : Font) (g : String) :
    (remove_glyph f g).cmap_rev = f.cmap_rev := rfl

theorem fontInv_remove_glyph {f : Font} (g : String) (h : FontInv f) :
    FontInv (remove_glyph f g) := h

/-- Well-formedness after deleting a glyph's last codepoint. -/
theorem mapsInv_erase_only {cmap : List (Nat × String)} {rev : List (String × List Nat)}
    {c : Nat} {g : String} (h : MapsInv cmap rev)
    (hc : lookupA cmap c = some g) (hone : getD rev g [] = [c]) :
    MapsInv (eraseKey cmap c) (eraseKey rev g) := by
  obtain ⟨hn1, hn2, hvn, hri⟩ := h
  refine ⟨keysNodup_eraseKey c hn1, keysNodup_eraseKey g hn2, ?_, ?_⟩
  · intro e he
    exact hvn e ((eraseKey_sublist rev g).subset he)
  · intro c' g'
    by_cases hcc : c' = c
    · subst hcc
      rw [lookupA_eraseKey_self]
      constructor
      · intro h
        exact Option.noConfusion h
      · intro hmem
        exfalso
        by_cases hgg : g' = g
        · subst hgg
          rw [getD_eraseKey_self] at hmem
          simp at hmem
        · rw [getD_eraseKey_ne rev hgg] at hmem
          have h2 := (hri c' g').mpr hmem
          rw [hc] at h2
          exact hgg (Option.some.inj h2).symm
    · rw [lookupA_eraseKey_ne cmap hcc]
      by_cases hgg : g' = g
      · subst hgg
        rw [getD_eraseKey_self]
        simp only [List.not_mem_nil, iff_false]
        intro h
        have hmem := (hri c' g').mp h
        rw [hone] at hmem
        simp only [List.mem_singleton] at hmem
        exact hcc hmem
      · rw [getD_eraseKey_ne rev hgg]
        exact hri c' g'

/-- Well-formedness after deleting one of several codepoints of a glyph. -/
theorem mapsInv_erase_multi {cmap : List (Nat × String)} {rev : List (String × List Nat)}
    {c : Nat} {g : String} (h : MapsInv cmap rev)
    (hc : lookupA cmap c = some g) (hone : getD rev g [] ≠ [c]) :
    MapsInv (eraseKey cmap c) (setKey rev g ((getD rev g []).erase c)) := by
  obtain ⟨hn1, hn2, hvn, hri⟩ := h
  have hcin : c ∈ getD rev g [] := (hri c g).mp hc
  obtain ⟨l, hl⟩ : ∃ l, lookupA rev g = some l := by
    unfold getD at hcin
    cases hx : lookupA rev g with
    | none =>
      rw [hx] at hcin
      simp at hcin
    | some l => exact ⟨l, rfl⟩
  have hrg : getD rev g [] = l := by
    unfold getD
    rw [hl]
    rfl
  have hln : l.Nodup := hvn (g, l) (lookupA_mem hl)
  refine ⟨keysNodup_eraseKey c hn1, keysNodup_setKey hn2, ?_, ?_⟩
  · intro e he
    rcases mem_setKey he with he' | he'
    · rw [he']
      rw [hrg]
      exact hln.erase c
    · exact hvn e he'
  · intro c' g'
    by_cases hcc : c' = c
    · subst hcc
      rw [lookupA_eraseKey_self]
      constructor
      · intro h
        exact Option.noConfusion h
      · intro hmem
        exfalso
        by_cases hgg : g' = g
        · subst hgg
          rw [getD_setKey_self, hrg] at hmem
          exact hln.not_mem_erase hmem
        · rw [getD_setKey_ne rev hgg] at hmem
          have h2 := (hri c' g').mpr hmem
          rw [hc] at h2
          exact hgg (Option.some.inj h2).symm
    · rw [lookupA_eraseKey_ne cmap hcc]
      by_cases hgg : g' = g
      · subst hgg
        rw [getD_setKey_self, hrg, List.mem_erase_of_ne hcc, ← hrg]
        exact hri c' g' 
      · rw [getD_setKey_ne rev hgg]
        exact hri c' g'

/-- Behaviour of `disassociate_codepoint_and_glyph_name` on a well-formed
font at a present codepoint: never raises, returns the two maps with the
codepoint deleted, and reports whether it was the glyph's only one. -/
theorem disassociate_spec (f : Font) (c : Nat) (g : String) (hinv : FontInv f)
    (hc : lookupA f.cmap c = some g) :
    disassociate_codepoint_and_glyph_name f c g =
      .ok (if getD f.cmap_rev g [] = [c]
        then ({ f with cmap := eraseKey f.cmap c, cmap_rev := eraseKey f.cmap_rev g }, true)
        else ({ f with cmap := eraseKey f.cmap c, cmap_rev := setKey f.cmap_rev g ((getD f.cmap_rev g []).erase c) }, false)) := by
  have hmem : keyMem f.cmap c = true := by
    unfold keyMem
    rw [hc]
    rfl
  have hcin : c ∈ getD f.cmap_rev g [] := (hinv.2.2.2 c g).mp hc
  simp only [disassociate_codepoint_and_glyph_name]
  rw [if_neg (not_not_intro hmem)]
  by_cases hone : getD f.cmap_rev g [] = [c]
  · rw [if_pos hone, if_pos hone]
  · rw [if_neg hone, if_pos hcin, if_neg hone]

/-- Full behaviour of `remove_codepoint` on a well-formed font: absent or
falsy-named codepoints are no-ops; otherwise the codepoint is deleted from
both maps, well-formedness is preserved, and the glyph itself is removed
exactly when the codepoint was its last one. -/
theorem remove_codepoint_spec (f : Font) (c : Nat) (hinv : FontInv f) :
    (lookupA f.cmap c = none → remove_codepoint f c = .ok f) ∧
    (lookupA f.cmap c = some "" → remove_codepoint f c = .ok f) ∧
    (∀ g, lookupA f.cmap c = some g → g ≠ "" →
      ∃ f', remove_codepoint f c = .ok f' ∧ FontInv f' ∧
        f'.cmap = eraseKey f.cmap c ∧
        ((∀ c', lookupA f.cmap c' = some g → c' = c) →
          f'.glyph_order = f.glyph_order.erase g ∧ f'.glyf = eraseKey f.glyf g) ∧
        ((∃ c', lookupA f.cmap c' = some g ∧ c' ≠ c) →
          f'.glyph_order = f.glyph_order ∧ f'.glyf = f.glyf ∧
          f'.gsub = f.gsub ∧ f'.gpos = f.gpos ∧ f'.base = f.base)) := by
  refine ⟨?_, ?_, ?_⟩
  · intro h
    unfold remove_codepoint
    rw [h]
  · intro h
    unfold remove_codepoint
    rw [h]
    rfl
  · intro g hc hg
    unfold remove_codepoint
    rw [hc]
    dsimp only
    rw [if_neg hg]
    rw [disassociate_spec f c g hinv hc]
    by_cases hone : getD f.cmap_rev g [] = [c]
    · rw [if_pos hone]
      dsimp only [exceptBind_ok]
      refine ⟨_, rfl, ?_, rfl, ?_, ?_⟩
      · exact fontInv_remove_glyph g (mapsInv_erase_only hinv hc hone)
      · intro _
        exact ⟨rfl, rfl⟩
      · intro hmulti
        obtain ⟨c', hc', hne⟩ := hmulti
        exfalso
        have honly := (hinv.2.2.2 c' g).mp hc'
        rw [hone] at honly
        simp only [List.mem_singleton] at honly
        exact hne honly
    · rw [if_neg hone]
      dsimp only [exceptBind_ok]
      refine ⟨_, rfl, ?_, rfl, ?_, ?_⟩
      · exact mapsInv_erase_multi hinv hc hone
      · intro honly
        exfalso
        apply hone
        have hri := hinv.2.2.2
        have hcin : c ∈ getD f.cmap_rev g [] := (hri c g).mp hc
        have hall : ∀ x ∈ getD f.cmap_rev g [], x = c := by
          intro x hx
          exact honly x ((hri x g).mpr hx)
        have hnd : (getD f.cmap_rev g []).Nodup := by
          unfold getD
          cases hl : lookupA f.cmap_rev g with
          | none => simp
          | some l =>
            simpa using hinv.2.2.1 (g, l) (lookupA_mem hl)
        cases hrg : getD f.cmap_rev g [] with
        | nil =>
          rw [hrg] at hcin
          simp at hcin
        | cons x rest =>
          rw [hrg] at hall hnd
          have hx : x = c := hall x (List.mem_cons_self _ _)
          have hrest : rest = [] := by
            cases rest with
            | nil => rfl
            | cons y rest' =>
              exfalso
              have hy : y = c := hall y (by simp)
              simp only [List.nodup_cons] at hnd
              exact hnd.1 (by rw [hx, ← hy]; simp)
          rw [hx, hrest]
      · intro _
        exact ⟨rfl, rfl, rfl, rfl, rfl⟩

theorem fontInv_remove_codepoint {f : Font} (c : Nat) (hinv : FontInv f) :
    ∃ f', remove_codepoint f c = .ok f' ∧ FontInv f' := by
  cases hc : lookupA f.cmap c with
  | none => exact ⟨f, (remove_codepoint_spec f c hinv).1 hc, hinv⟩
  | some g =>
    by_cases hg : g = ""
    · subst hg
      exact ⟨f, (remove_codepoint_spec f c hinv).2.1 hc, hinv⟩
    · obtain ⟨f', hok, hinv', -⟩ := (remove_codepoint_spec f c hinv).2.2 g hc hg
      exact ⟨f', hok, hinv'⟩

theorem fontInv_remove_codepoints {f : Font} (cs : List Nat) (hinv : FontInv f) :
    ∃ f', remove_codepoints f cs = .ok f' ∧ FontInv f' := by
  induction cs generalizing f with
  | nil => exact ⟨f, rfl, hinv⟩
  | cons c cs ih =>
    obtain ⟨f1, h1, hinv1⟩ := fontInv_remove_codepoint c hinv
    obtain ⟨f2, h2, hinv2⟩ := ih hinv1
    refine ⟨f2, ?_, hinv2⟩
    unfold remove_codepoints at h2 ⊢
    rw [List.foldlM_cons, h1, exceptBind_ok]
    exact h2

/-! ## Claim C4: the reverse-index invariant is preserved -/

/-- A removal call of the pruning API: one codepoint or a batch. -/
inductive RemovalOp where
  | one (c : Nat)
  | many (cs : List Nat)
deriving DecidableEq

/-- Interpretation of one removal call. -/
def applyRemovalOp (f : Font) : RemovalOp → Except String Font
  | .one c => remove_codepoint f c
  | .many cs => remove_codepoints f cs

/-- Interpretation of a sequence of removal calls. -/
def applyRemovalOps (f : Font) (ops : List RemovalOp) : Except String Font :=
  ops.foldlM applyRemovalOp f

theorem fontInv_applyRemovalOps {f : Font} (ops : List RemovalOp) (hinv : FontInv f) :
    ∃ f', applyRemovalOps f ops = .ok f' ∧ FontInv f' := by
  induction ops generalizing f with
  | nil => exact ⟨f, rfl, hinv⟩
  | cons op ops ih =>
    obtain ⟨f1, h1, hinv1⟩ : ∃ f1, applyRemovalOp f op = .ok f1 ∧ FontInv f1 := by
      cases op with
      | one c => exact fontInv_remove_codepoint c hinv
      | many cs => exact fontInv_remove_codepoints cs hinv
    obtain ⟨f2, h2, hinv2⟩ := ih hinv1
    refine ⟨f2, ?_, hinv2⟩
    unfold applyRemovalOps at h2 ⊢
    rw [List.foldlM_cons, h1, exceptBind_ok]
    exact h2

/-- C4: starting from a font whose `cmap_rev` was built by
`build_cmap_rev` from a duplicate-free `cmap`, any sequence of
`remove_codepoint` / `remove_codepoints` calls succeeds and leaves the
reverse-index invariant intact: `cmap` maps `c` to `g` iff `c` is in
`cmap_rev[g]` (so no other glyph's entry can hold `c`, `lookupA` being
single-valued). -/
theorem claim_C4_reverse_index_invariant (f : Font) (hnd : keysNodup f.cmap)
    (hrev : f.cmap_rev = build_cmap_rev f.cmap) (ops : List RemovalOp) :
    ∃ f', applyRemovalOps f ops = .ok f' ∧
      ∀ c g, lookupA f'.cmap c = some g ↔ c ∈ getD f'.cmap_rev g [] := by
  obtain ⟨f', hok, hinv'⟩ :=
    fontInv_applyRemovalOps ops (fontInv_of_build f hnd hrev)
  exact ⟨f', hok, hinv'.2.2.2⟩

/-- A sample font for the C4 witness: two codepoints share glyph `a`. -/
def F4 : Font :=
  { cmap := [(49, "a"), (50, "a"), (51, "b")],
    cmap_rev := build_cmap_rev [(49, "a"), (50, "a"), (51, "b")],
    glyph_order := [".notdef", ".null", "a", "b"],
    glyf := [("a", ⟨1, 1, 1⟩), ("b", ⟨1, 1, 1⟩)],
    gsub := emptyScript, gpos := ⟨[]⟩, base := none }

/-- C4 witness: a concrete removal sequence on `F4` (one plain removal,
one batch; codepoint 60 is absent and exercises the no-op path). -/
theorem claim_C4_reverse_index_invariant_witness :
    ∃ f', applyRemovalOps F4 [.one 49, .many [51, 60]] = .ok f' ∧
      ∀ c g, lookupA f'.cmap c = some g ↔ c ∈ getD f'.cmap_rev g [] :=
  claim_C4_reverse_index_invariant F4 (by decide) rfl [.one 49, .many [51, 60]]

/-! ## Claim C8: behaviour of `remove_codepoint` -/

/-- C8 (amended): on a well-formed font, `remove_codepoint` is a no-op
when the codepoint is absent — but also when it maps to the falsy empty
glyph name, which the original claim misses; otherwise it deletes the
codepoint from `cmap`, and cascades into glyph removal (emptying the
glyph's `glyf`/`glyph_order` slots) exactly when the codepoint was the
glyph's only one, leaving all glyph tables untouched otherwise. -/
theorem claim_C8_remove_codepoint_amended (f : Font) (c : Nat)
    (hnd : keysNodup f.cmap) (hrev : f.cmap_rev = build_cmap_rev f.cmap) :
    (lookupA f.cmap c = none → remove_codepoint f c = .ok f) ∧
    (lookupA f.cmap c = some "" → remove_codepoint f c = .ok f) ∧
    (∀ g, lookupA f.cmap c = some g → g ≠ "" →
      ∃ f', remove_codepoint f c = .ok f' ∧ FontInv f' ∧
        f'.cmap = eraseKey f.cmap c ∧
        ((∀ c', lookupA f.cmap c' = some g → c' = c) →
          f'.glyph_order = f.glyph_order.erase g ∧ f'.glyf = eraseKey f.glyf g) ∧
        ((∃ c', lookupA f.cmap c' = some g ∧ c' ≠ c) →
          f'.glyph_order = f.glyph_order ∧ f'.glyf = f.glyf ∧
          f'.gsub = f.gsub ∧ f'.gpos = f.gpos ∧ f'.base = f.base)) :=
  remove_codepoint_spec f c (fontInv_of_build f hnd hrev)

/-- C8 witness: on `F4`, codepoint 51 is glyph `b`'s only codepoint. -/
theorem claim_C8_remove_codepoint_amended_witness :
    (lookupA F4.cmap 51 = none → remove_codepoint F4 51 = .ok F4) ∧
    (lookupA F4.cmap 51 = some "" → remove_codepoint F4 51 = .ok F4) ∧
    (∀ g, lookupA F4.cmap 51 = some g → g ≠ "" →
      ∃ f', remove_codepoint F4 51 = .ok f' ∧ FontInv f' ∧
        f'.cmap = eraseKey F4.cmap 51 ∧
        ((∀ c', lookupA F4.cmap c' = some g → c' = 51) →
          f'.glyph_order = F4.glyph_order.erase g ∧ f'.glyf = eraseKey F4.glyf g) ∧
        ((∃ c', lookupA F4.cmap c' = some g ∧ c' ≠ 51) →
          f'.glyph_order = F4.glyph_order ∧ f'.glyf = F4.glyf ∧
          f'.gsub = F4.gsub ∧ f'.gpos = F4.gpos ∧ f'.base = F4.base)) :=
  claim_C8_remove_codepoint_amended F4 51 (by decide) rfl

/-- A font whose single codepoint maps to the empty (falsy) glyph name. -/
def F8 : Font :=
  { cmap := [(5, "")], cmap_rev := build_cmap_rev [(5, "")],
    glyph_order := [".notdef", ".null", ""], glyf := [("", ⟨0, 0, 0⟩)],
    gsub := emptyScript, gpos := ⟨[]⟩, base := none }

/-- C8 counterexample: on the well-formed font `F8` the codepoint 5 is
present in `cmap` (mapped to the empty glyph name, which Python's
`if not glyph_name` treats as falsy), yet `remove_codepoint` returns the
font unchanged — the codepoint is not removed, contradicting the claim
that any present codepoint is deleted and disassociated. -/
theorem claim_C8_counterexample :
    keysNodup F8.cmap ∧ F8.cmap_rev = build_cmap_rev F8.cmap ∧
    lookupA F8.cmap 5 = some "" ∧
    remove_codepoint F8 5 = .ok F8 ∧
    (5, "") ∈ F8.cmap :=
  ⟨by decide, rfl, rfl, rfl, by decide⟩

/-! ## Claim C2: glyph removal positions (`remove_glyph`) -/

theorem mem_eraseKey {κ β : Type} [DecidableEq κ] {m : List (κ × β)} {k : κ}
    {e : κ × β} (h : e ∈ eraseKey m k) : e ∈ m ∧ e.1 ≠ k := by
  induction m with
  | nil => simp at h
  | cons e' rest ih =>
    by_cases he : e'.1 = k
    · rw [eraseKey, if_pos he] at h
      obtain ⟨h1, h2⟩ := ih h
      exact ⟨List.mem_cons_of_mem _ h1, h2⟩
    · rw [eraseKey, if_neg he] at h
      rcases List.mem_cons.mp h with h | h
      · exact ⟨h ▸ List.mem_cons_self _ _, h ▸ he⟩
      · obtain ⟨h1, h2⟩ := ih h
        exact ⟨List.mem_cons_of_mem _ h1, h2⟩

theorem not_mem_eraseIdx_indexOf {l : List String} {g : String} (hnd : l.Nodup) :
    g ∉ l.eraseIdx (l.indexOf g) := by
  induction l with
  | nil => simp
  | cons x rest ih =>
    simp only [List.nodup_cons] at hnd
    by_cases hx : x = g
    · subst hx
      rw [List.indexOf_cons_self]
      simpa using hnd.1
    · rw [List.indexOf_cons_ne _ hx]
      rw [List.eraseIdx_cons_succ]
      intro hmem
      rcases List.mem_cons.mp hmem with h | h
      · exact hx h.symm
      · exact ih hnd.2 h

/-- After removal, the glyph is gone from the variant-specific positions
of a GSUB lookup; `gsub_multiple` and unknown tags are (deliberately)
exempt, matching the code's unknown-type fallback. -/
def glyphGoneGSUB (g : String) : GSUBLookup → Prop
  | .gsub_single sts => ∀ st ∈ sts, ∀ kv ∈ st, kv.1 ≠ g ∧ kv.2 ≠ g
  | .gsub_alternate sts => ∀ st ∈ sts, ∀ kv ∈ st, kv.1 ≠ g ∧ g ∉ kv.2
  | .gsub_ligature sts => ∀ st ∈ sts, ∀ r ∈ st, g ∉ r.frm ∧ r.toGlyph ≠ g
  | .gsub_multiple _ => True
  | .other _ => True

/-- Post-removal absence for one `gpos_context` subtable. -/
def gposContextGone (g : String) : GposContextSubtable → Prop
  | .rules rules => ∀ r ∈ rules, g ∉ r.input ∧ g ∉ r.lookups
  | .coveragePos coverage _ => g ∉ coverage
  | .classes cls => ∀ cl ∈ cls, g ∉ cl
  | .otherFmt => True

/-- Post-removal absence for one `gpos_chaining` subtable. -/
def gposChainGone (g : String) : GposChainSubtable → Prop
  | .rules rules => ∀ r ∈ rules,
      g ∉ r.input ∧ g ∉ r.backtrack ∧ g ∉ r.lookahead ∧ g ∉ r.lookups
  | .otherFmt => True

/-- After removal, the glyph is gone from the variant-specific positions
of a GPOS lookup. -/
def glyphGoneGPOS (g : String) : GPOSLookup → Prop
  | .gpos_single sts => ∀ st ∈ sts, ∀ kv ∈ st, kv.1 ≠ g
  | .gpos_pair sts => ∀ st ∈ sts,
      (∀ kv ∈ st.first, kv.1 ≠ g) ∧ (∀ kv ∈ st.second, kv.1 ≠ g)
  | .gpos_mark_to_base sts => ∀ st ∈ sts,
      (∀ kv ∈ st.marks, kv.1 ≠ g) ∧ (∀ kv ∈ st.bases, kv.1 ≠ g)
  | .gpos_mark_to_mark sts => ∀ st ∈ sts,
      (∀ kv ∈ st.marks, kv.1 ≠ g) ∧ (∀ kv ∈ st.mark2s, kv.1 ≠ g)
  | .gpos_mark_to_ligature sts => ∀ st ∈ sts,
      (∀ kv ∈ st.marks, kv.1 ≠ g) ∧
      (∀ b ∈ st.bases, ∀ comp ∈ b.2, ∀ kv ∈ comp.2, kv.1 ≠ g)
  | .gpos_cursive sts => ∀ st ∈ sts, ∀ kv ∈ st, kv.1 ≠ g
  | .gpos_context sts => ∀ st ∈ sts, gposContextGone g st
  | .gpos_chaining sts => ∀ st ∈ sts, gposChainGone g st
  | .other _ => True

/-- Duplicate-freedom of the alternate lists of a GSUB lookup (needed
because Python's `list.remove` only drops the first occurrence). -/
def altSubtableNodup : GSUBLookup → Bool
  | .gsub_alternate sts => sts.all (fun st => st.all (fun kv => decide kv.2.Nodup))
  | _ => true

/-- Duplicate-freedom of the coverage and class lists of a GPOS lookup. -/
def gposSubtableNodup : GPOSLookup → Bool
  | .gpos_context sts => sts.all (fun st =>
      match st with
      | .coveragePos cov _ => decide cov.Nodup
      | .classes cls => cls.all (fun cl => decide cl.Nodup)
      | _ => true)
  | _ => true

/-- Duplicate-freedom of every list `remove_glyph` edits by single-element
removal (alternate lists, coverage lists, class lists). -/
def removalListsNodup (f : Font) : Bool :=
  f.gsub.lookups.all (fun nl => altSubtableNodup nl.2) &&
  f.gpos.lookups.all (fun nl => gposSubtableNodup nl.2)

theorem glyphGoneGSUB_remove (g : String) (lk : GSUBLookup)
    (h : altSubtableNodup lk = true) : glyphGoneGSUB g (removeGlyphGSUB g lk) := by
  cases lk with
  | gsub_single sts =>
    intro st hst kv hkv
    rcases List.mem_map.mp hst with ⟨st0, hst0, hmap⟩
    subst hmap
    have := List.of_mem_filter hkv
    simp only [decide_eq_true_eq] at this
    push_neg at this
    exact this
  | gsub_alternate sts =>
    intro st hst kv hkv
    rcases List.mem_map.mp hst with ⟨st0, hst0, hmap⟩
    subst hmap
    rcases List.mem_map.mp hkv with ⟨kv0, hkv0, hkvmap⟩
    subst hkvmap
    have hkey := List.of_mem_filter hkv0
    simp only [decide_eq_true_eq] at hkey
    refine ⟨hkey, ?_⟩
    have hsub : kv0 ∈ st0 := List.mem_of_mem_filter hkv0
    have hnodup : kv0.2.Nodup := by
      unfold altSubtableNodup at h
      rw [List.all_eq_true] at h
      have h1 := h st0 hst0
      rw [List.all_eq_true] at h1
      have h2 := h1 kv0 hsub
      simpa using h2
    exact hnodup.not_mem_erase
  | gsub_ligature sts =>
    intro st hst r hr
    rcases List.mem_map.mp hst with ⟨st0, hst0, hmap⟩
    subst hmap
    have := List.of_mem_filter hr
    simp only [decide_eq_true_eq] at this
    push_neg at this
    exact ⟨this.1, fun hh => this.2 hh.symm⟩
  | gsub_multiple sts => trivial
  | other tag => trivial

theorem glyphGoneGPOS_remove (g : String) (lk : GPOSLookup)
    (h : gposSubtableNodup lk = true) : glyphGoneGPOS g (removeGlyphGPOS g lk) := by
  cases lk with
  | gpos_single sts =>
    intro st hst kv hkv
    rcases List.mem_map.mp hst with ⟨st0, hst0, hmap⟩
    subst hmap
    exact (mem_eraseKey hkv).2
  | gpos_pair sts =>
    intro st hst
    rcases List.mem_map.mp hst with ⟨st0, hst0, hmap⟩
    subst hmap
    exact ⟨fun kv hkv => (mem_eraseKey hkv).2, fun kv hkv => (mem_eraseKey hkv).2⟩
  | gpos_mark_to_base sts =>
    intro st hst
    rcases List.mem_map.mp hst with ⟨st0, hst0, hmap⟩
    subst hmap
    exact ⟨fun kv hkv => (mem_eraseKey hkv).2, fun kv hkv => (mem_eraseKey hkv).2⟩
  | gpos_mark_to_mark sts =>
    intro st hst
    rcases List.mem_map.mp hst with ⟨st0, hst0, hmap⟩
    subst hmap
    exact ⟨fun kv hkv => (mem_eraseKey hkv).2, fun kv hkv => (mem_eraseKey hkv).2⟩
  | gpos_mark_to_ligature sts =>
    intro st hst
    rcases List.mem_map.mp hst with ⟨st0, hst0, hmap⟩
    subst hmap
    refine ⟨fun kv hkv => (mem_eraseKey hkv).2, ?_⟩
    intro b hb comp hcomp kv hkv
    rcases List.mem_map.mp hb with ⟨b0, hb0, hbmap⟩
    subst hbmap
    rcases List.mem_map.mp hcomp with ⟨c0, hc0, hcmap⟩
    subst hcmap
    exact (mem_eraseKey hkv).2
  | gpos_cursive sts =>
    intro st hst kv hkv
    rcases List.mem_map.mp hst with ⟨st0, hst0, hmap⟩
    subst hmap
    exact (mem_eraseKey hkv).2
  | gpos_context sts =>
    intro st hst
    rcases List.mem_map.mp hst with ⟨st0, hst0, hmap⟩
    subst hmap
    unfold gposSubtableNodup at h
    rw [List.all_eq_true] at h
    have hst0' := h st0 hst0
    cases st0 with
    | rules rules =>
      intro r hr
      have := List.of_mem_filter hr
      simp only [decide_eq_true_eq] at this
      push_neg at this
      exact this
    | coveragePos cov pos =>
      dsimp only
      dsimp only at hst0'
      rw [decide_eq_true_eq] at hst0'
      by_cases hg : g ∈ cov
      · rw [if_pos hg]
        exact not_mem_eraseIdx_indexOf hst0'
      · rw [if_neg hg]
        exact hg
    | classes cls =>
      intro cl hcl
      rcases List.mem_map.mp hcl with ⟨cl0, hcl0, hclmap⟩
      subst hclmap
      dsimp only at hst0'
      rw [List.all_eq_true] at hst0'
      have := hst0' cl0 hcl0
      simp only [decide_eq_true_eq] at this
      exact this.not_mem_erase
    | otherFmt => trivial
  | gpos_chaining sts =>
    intro st hst
    rcases List.mem_map.mp hst with ⟨st0, hst0, hmap⟩
    subst hmap
    cases st0 with
    | rules rules =>
      intro r hr
      have := List.of_mem_filter hr
      simp only [decide_eq_true_eq] at this
      push_neg at this
      exact this
    | otherFmt => trivial
  | other tag => trivial

/-- C2 (amended): after `remove_glyph`, the glyph is gone from every
variant-specific position of the handled GSUB/GPOS lookup types and from
`glyf` — but `gsub_multiple` lookups (and unknown tags) are left entirely
unchanged, because they fall into the code's unknown-GSUB-type fallback;
the original claim's `gsub_multiple` key removal does not happen.
Alternate/coverage/class lists are assumed duplicate-free, since Python's
`list.remove` only drops one occurrence. -/
theorem claim_C2_remove_glyph_amended (f : Font) (g : String)
    (h : removalListsNodup f = true) :
    (∀ nl ∈ (remove_glyph f g).gsub.lookups, glyphGoneGSUB g nl.2) ∧
    (∀ nl ∈ (remove_glyph f g).gpos.lookups, glyphGoneGPOS g nl.2) ∧
    (∀ e ∈ (remove_glyph f g).glyf, e.1 ≠ g) ∧
    (∀ nl ∈ f.gsub.lookups, ∀ sts, nl.2 = GSUBLookup.gsub_multiple sts →
      (nl.1, GSUBLookup.gsub_multiple sts) ∈ (remove_glyph f g).gsub.lookups) := by
  unfold removalListsNodup at h
  rw [Bool.and_eq_true] at h
  obtain ⟨hgsub, hgpos⟩ := h
  rw [List.all_eq_true] at hgsub
  rw [List.all_eq_true] at hgpos
  have hlk : (remove_glyph f g).gsub.lookups
      = f.gsub.lookups.map (fun nl => (nl.1, removeGlyphGSUB g nl.2)) := rfl
  refine ⟨?_, ?_, ?_, ?_⟩
  · intro nl hnl
    rw [hlk] at hnl
    rcases List.mem_map.mp hnl with ⟨nl0, hnl0, hmap⟩
    subst hmap
    exact glyphGoneGSUB_remove g nl0.2 (hgsub nl0 hnl0)
  · intro nl hnl
    have hlk2 : (remove_glyph f g).gpos.lookups
        = f.gpos.lookups.map (fun nl => (nl.1, removeGlyphGPOS g nl.2)) := rfl
    rw [hlk2] at hnl
    rcases List.mem_map.mp hnl with ⟨nl0, hnl0, hmap⟩
    subst hmap
    exact glyphGoneGPOS_remove g nl0.2 (hgpos nl0 hnl0)
  · intro e he
    have hglyf : (remove_glyph f g).glyf = eraseKey f.glyf g := rfl
    rw [hglyf] at he
    exact (mem_eraseKey he).2
  · intro nl hnl sts hsts
    rw [hlk]
    refine List.mem_map.mpr ⟨nl, hnl, ?_⟩
    rw [hsts]
    rfl

/-- A font carrying an alternate, a ligature and a `gsub_multiple` lookup,
plus context/chaining GPOS lookups, for the C2 witness. -/
def F2w : Font :=
  { cmap := [], cmap_rev := [],
    glyph_order := ["g", "x", "y"],
    glyf := [("g", ⟨0, 0, 0⟩), ("x", ⟨0, 0, 0⟩)],
    gsub := ⟨[("s1", .gsub_single [[("g", "x"), ("y", "g"), ("a", "b")]]),
       ("a1", .gsub_alternate [[("g", ["x"]), ("k", ["g", "z"])]]),
       ("l1", .gsub_ligature [[⟨["a", "g"], "x"⟩, ⟨["a", "b"], "g"⟩, ⟨["a", "b"], "c"⟩]]),
       ("m1", .gsub_multiple [[("g", ["a", "b"])]])], [], [], []⟩,
    gpos := ⟨[("p1", .gpos_single [[("g", 0), ("x", 1)]]),
       ("c1", .gpos_context [.coveragePos ["g", "x"] [0, 1], .classes [["g", "x"]]])]⟩,
    base := none }

/-- C2 witness: removing `g` from `F2w` clears every handled position
while the `gsub_multiple` lookup keeps its `g` key. -/
theorem claim_C2_remove_glyph_amended_witness :
    (∀ nl ∈ (remove_glyph F2w "g").gsub.lookups, glyphGoneGSUB "g" nl.2) ∧
    (∀ nl ∈ (remove_glyph F2w "g").gpos.lookups, glyphGoneGPOS "g" nl.2) ∧
    (∀ e ∈ (remove_glyph F2w "g").glyf, e.1 ≠ "g") ∧
    (∀ nl ∈ F2w.gsub.lookups, ∀ sts, nl.2 = GSUBLookup.gsub_multiple sts →
      (nl.1, GSUBLookup.gsub_multiple sts) ∈ (remove_glyph F2w "g").gsub.lookups) :=
  claim_C2_remove_glyph_amended F2w "g" rfl

/-- A font whose only lookup is a `gsub_multiple` keyed by `g`. -/
def F2 : Font :=
  { cmap := [], cmap_rev := [],
    glyph_order := ["g"], glyf := [],
    gsub := ⟨[("m", .gsub_multiple [[("g", ["a"])]])], [], [], []⟩,
    gpos := ⟨[]⟩, base := none }

/-- C2 counterexample: after `remove_glyph F2 "g"` the `gsub_multiple`
lookup still holds `g` as a subtable key — the claim that `g` is removed
wherever it appears as a key of a `gsub_multiple` lookup fails, because
the code's GSUB branch handles only single/alternate/ligature and routes
`gsub_multiple` to the print-and-skip fallback. -/
theorem claim_C2_counterexample :
    (remove_glyph F2 "g").gsub.lookups = [("m", .gsub_multiple [[("g", ["a"])]])] ∧
    ¬ (∀ nl ∈ (remove_glyph F2 "g").gsub.lookups, ∀ sts,
        nl.2 = GSUBLookup.gsub_multiple sts → ∀ st ∈ sts, ∀ kv ∈ st, kv.1 ≠ "g") := by
  refine ⟨by decide, ?_⟩
  intro h
  have hmem : ("m", GSUBLookup.gsub_multiple [[("g", ["a"])]])
      ∈ (remove_glyph F2 "g").gsub.lookups := by
    rw [show (remove_glyph F2 "g").gsub.lookups
        = [("m", GSUBLookup.gsub_multiple [[("g", ["a"])]])] from by decide]
    exact List.mem_singleton.mpr rfl
  exact h _ hmem [[("g", ["a"])]] rfl [("g", ["a"])] (by simp)
    ("g", ["a"]) (by simp) rfl

/-! ## Characterization of `get_reachable_glyphs` -/

/-- The list the successful reachability analysis returns: the two
defaults, then for each cmap-targeted glyph the glyph itself followed by
its one-step substitution targets. -/
def reachList (f : Font) : List String :=
  [".notdef", ".null"] ++
    ((f.cmap.map (·.2)).map (fun g => g :: oneStep f.gsub.lookups g)).flatten

theorem reach_inner_fold (lks : List (String × GSUBLookup)) (g : String)
    (hok : ∀ nl ∈ lks, gsubOk nl.2 = true) (acc : List String) :
    (lks.foldlM
      (fun acc2 nl => do
        let ts ← lookupReachTargets g nl.2
        pure (acc2 ++ ts))
      acc : Except String (List String)) = .ok (acc ++ oneStep lks g) := by
  induction lks generalizing acc with
  | nil => simp [oneStep]
  | cons nl rest ih =>
    rw [List.foldlM_cons]
    have h1 : lookupReachTargets g nl.2 = .ok (lookupTargetsP g nl.2) := by
      unfold lookupReachTargets
      rw [if_pos (hok nl (List.mem_cons_self _ _))]
    rw [h1]
    show (rest.foldlM _ (acc ++ lookupTargetsP g nl.2) : Except String (List String)) = _
    rw [ih (fun nl' h => hok nl' (List.mem_cons_of_mem _ h))]
    unfold oneStep
    simp [List.append_assoc]

theorem reach_inner_fold_error (lks : List (String × GSUBLookup)) (g : String)
    (hbad : ∃ nl ∈ lks, gsubOk nl.2 = false) (acc : List String) :
    (lks.foldlM
      (fun acc2 nl => do
        let ts ← lookupReachTargets g nl.2
        pure (acc2 ++ ts))
      acc : Except String (List String))
      = .error "NotImplementedError: Unknown GSUB lookup type" := by
  induction lks generalizing acc with
  | nil => simp at hbad
  | cons nl rest ih =>
    rw [List.foldlM_cons]
    by_cases hh : gsubOk nl.2 = true
    · have h1 : lookupReachTargets g nl.2 = .ok (lookupTargetsP g nl.2) := by
        unfold lookupReachTargets
        rw [if_pos hh]
      rw [h1]
      show (rest.foldlM _ (acc ++ lookupTargetsP g nl.2) : Except String (List String)) = _
      obtain ⟨nl', hnl', hbad'⟩ := hbad
      rcases List.mem_cons.mp hnl' with rfl | hnl'
      · rw [hh] at hbad'
        exact Bool.noConfusion hbad'
      · exact ih ⟨nl', hnl', hbad'⟩ _
    · have h1 : lookupReachTargets g nl.2
          = .error "NotImplementedError: Unknown GSUB lookup type" := by
        unfold lookupReachTargets
        rw [if_neg hh]
      rw [h1]
      rfl

theorem reach_outer_fold (lks : List (String × GSUBLookup))
    (hok : ∀ nl ∈ lks, gsubOk nl.2 = true) (gs : List String) (acc : List String) :
    (gs.foldlM
      (fun acc g => do
        let extra ← lks.foldlM
          (fun acc2 nl => do
            let ts ← lookupReachTargets g nl.2
            pure (acc2 ++ ts))
          []
        pure (acc ++ [g] ++ extra))
      acc : Except String (List String))
      = .ok (acc ++ (gs.map (fun g => g :: oneStep lks g)).flatten) := by
  induction gs generalizing acc with
  | nil => simp
  | cons g rest ih =>
    rw [List.foldlM_cons, reach_inner_fold lks g hok []]
    show (rest.foldlM _ (acc ++ [g] ++ ([] ++ oneStep lks g)) : Except String (List String)) = _
    rw [ih]
    simp [List.append_assoc]

theorem reach_ok_of_all_ok (f : Font) (hok : ∀ nl ∈ f.gsub.lookups, gsubOk nl.2 = true) :
    get_reachable_glyphs f = .ok (reachList f) := by
  unfold get_reachable_glyphs reachList
  exact reach_outer_fold f.gsub.lookups hok (f.cmap.map (·.2)) [".notdef", ".null"]

theorem reach_error_of_bad (f : Font) (hne : f.cmap ≠ [])
    (hbad : ∃ nl ∈ f.gsub.lookups, gsubOk nl.2 = false) :
    get_reachable_glyphs f
      = .error "NotImplementedError: Unknown GSUB lookup type" := by
  unfold get_reachable_glyphs
  cases hc : f.cmap with
  | nil => exact absurd hc hne
  | cons e rest =>
    rw [List.map_cons, List.foldlM_cons]
    rw [reach_inner_fold_error f.gsub.lookups e.2 hbad []]
    rfl

/-- Whatever list a successful reachability analysis returns is exactly
`reachList`. -/
theorem reach_result_eq {f : Font} {r : List String}
    (h : get_reachable_glyphs f = .ok r) : r = reachList f := by
  by_cases hc : f.cmap = []
  · unfold get_reachable_glyphs at h
    rw [hc] at h
    simp only [List.map_nil, List.foldlM_nil] at h
    unfold reachList
    rw [hc]
    simp only [List.map_nil, List.flatten_nil, List.append_nil]
    rw [exceptPure_eq] at h
    exact (Except.ok.inj h).symm
  · by_cases hok : ∀ nl ∈ f.gsub.lookups, gsubOk nl.2 = true
    · rw [reach_ok_of_all_ok f hok] at h
      exact (Except.ok.inj h).symm
    · push_neg at hok
      obtain ⟨nl, hnl, hbad⟩ := hok
      rw [reach_error_of_bad f hc ⟨nl, hnl, by simpa using hbad⟩] at h
      exact Except.noConfusion h

/-- Membership in `reachList`, spelled out. -/
theorem mem_reachList {f : Font} {x : String} :
    x ∈ reachList f ↔ (x = ".notdef" ∨ x = ".null" ∨
      ∃ g ∈ cmapTargets f, x = g ∨ x ∈ oneStep f.gsub.lookups g) := by
  unfold reachList cmapTargets
  rw [List.mem_append, List.mem_flatten]
  constructor
  · intro h
    rcases h with h | h
    · rcases List.mem_cons.mp h with h | h
      · exact Or.inl h
      · exact Or.inr (Or.inl (by simpa using h))
    · obtain ⟨l, hl, hx⟩ := h
      rcases List.mem_map.mp hl with ⟨g, hg, hmap⟩
      subst hmap
      rcases List.mem_cons.mp hx with h | h
      · exact Or.inr (Or.inr ⟨g, hg, Or.inl h⟩)
      · exact Or.inr (Or.inr ⟨g, hg, Or.inr h⟩)
  · intro h
    rcases h with h | h | ⟨g, hg, h⟩
    · exact Or.inl (by simp [h])
    · exact Or.inl (by simp [h])
    · refine Or.inr ⟨g :: oneStep f.gsub.lookups g, List.mem_map.mpr ⟨g, hg, rfl⟩, ?_⟩
      rcases h with h | h
      · exact h ▸ List.mem_cons_self _ _
      · exact List.mem_cons_of_mem _ h

theorem target_mem_reachList {f : Font} {g : String} (hg : g ∈ cmapTargets f) :
    g ∈ reachList f :=
  mem_reachList.mpr (Or.inr (Or.inr ⟨g, hg, Or.inl rfl⟩))

theorem oneStep_mem_reachList {f : Font} {g x : String} (hg : g ∈ cmapTargets f)
    (hx : x ∈ oneStep f.gsub.lookups g) : x ∈ reachList f :=
  mem_reachList.mpr (Or.inr (Or.inr ⟨g, hg, Or.inr hx⟩))

/-! ## Claim C1: what `get_reachable_glyphs` computes -/

/-- C1 (amended): a successful `get_reachable_glyphs` returns exactly
`{'.notdef', '.null'}`, the glyphs directly targeted by `cmap`, and the
glyphs one substitution step away from a cmap-targeted glyph
(`gsub_single` targets, full `gsub_alternate` alternate lists,
`gsub_ligature` outputs of rules whose input list contains the glyph).
The set is not closed under following substitutions from arbitrary
members: steps out of glyphs only reachable through a substitution are
never followed (see the counterexample). -/
theorem claim_C1_reachable_glyphs_one_step (f : Font) (R : List String)
    (h : get_reachable_glyphs f = .ok R) :
    ∀ x, x ∈ R ↔ (x = ".notdef" ∨ x = ".null" ∨
      ∃ g ∈ cmapTargets f, x = g ∨ x ∈ oneStep f.gsub.lookups g) := by
  intro x
  rw [reach_result_eq h]
  exact mem_reachList

/-- A font with cmap glyph `a` and a `gsub_single` chain `a → b → c`. -/
def F1 : Font :=
  { cmap := [(49, "a")], cmap_rev := build_cmap_rev [(49, "a")],
    glyph_order := [".notdef", ".null", "a", "b", "c"],
    glyf := [("a", ⟨0, 0, 0⟩), ("b", ⟨0, 0, 0⟩), ("c", ⟨0, 0, 0⟩)],
    gsub := ⟨[("s", .gsub_single [[("a", "b"), ("b", "c")]])], [], [], []⟩,
    gpos := ⟨[]⟩, base := none }

/-- C1 witness: evaluating the characterization on `F1` at `b`. -/
theorem claim_C1_reachable_glyphs_one_step_witness :
    ("b" ∈ [".notdef", ".null", "a", "b"] ↔ ("b" = ".notdef" ∨ "b" = ".null" ∨
      ∃ g ∈ cmapTargets F1, "b" = g ∨ "b" ∈ oneStep F1.gsub.lookups g)) :=
  claim_C1_reachable_glyphs_one_step F1 [".notdef", ".null", "a", "b"] rfl "b"

/-- C1 counterexample: on `F1`, the returned set contains `b` and the
lookups map `b` one step to `c`, yet `c` is not in the set — the set is
not closed under following the substitutions from its members, refuting
the claimed transitive closure. -/
theorem claim_C1_counterexample :
    get_reachable_glyphs F1 = .ok [".notdef", ".null", "a", "b"] ∧
    ("s", GSUBLookup.gsub_single [[("a", "b"), ("b", "c")]]) ∈ F1.gsub.lookups ∧
    "b" ∈ [".notdef", ".null", "a", "b"] ∧
    "c" ∈ oneStep F1.gsub.lookups "b" ∧
    "c" ∉ [".notdef", ".null", "a", "b"] :=
  ⟨rfl, by decide, by decide, by decide, by decide⟩

/-! ## Claim C10: the sweep never touches `cmap` -/

/-- The reverse-index invariant alone (without the duplicate-freedom
side conditions of `MapsInv`). -/
def RevOkF (f : Font) : Prop :=
  ∀ c g, lookupA f.cmap c = some g ↔ c ∈ getD f.cmap_rev g []

theorem revGet_nil_of_not_target {f : Font} (hri : RevOkF f) {g : String}
    (hg : g ∉ cmapTargets f) : getD f.cmap_rev g [] = [] := by
  cases hx : getD f.cmap_rev g [] with
  | nil => rfl
  | cons c rest =>
    exfalso
    have hc : c ∈ getD f.cmap_rev g [] := by
      rw [hx]
      simp
    have hmap := (hri c g).mpr hc
    exact hg (List.mem_map.mpr ⟨(c, g), lookupA_mem hmap, rfl⟩)

/-- Sweeping an unreachable (hence cmap-untargeted) glyph deletes nothing
from `cmap`: its reverse entry is empty, so
`remove_associated_codepoints_of_glyph` only drops the reverse entry. -/
theorem remove_associated_not_target {f : Font} (hri : RevOkF f) {g : String}
    (hg : g ∉ cmapTargets f) :
    remove_associated_codepoints_of_glyph f g
      = .ok { f with cmap_rev := eraseKey f.cmap_rev g } := by
  unfold remove_associated_codepoints_of_glyph
  rw [revGet_nil_of_not_target hri hg]
  rfl

theorem sweepGlyph_spec {f : Font} (hri : RevOkF f) {g : String}
    (hg : g ∉ cmapTargets f) :
    sweepGlyph f g
      = .ok (remove_glyph { f with cmap_rev := eraseKey f.cmap_rev g } g) := by
  unfold sweepGlyph
  rw [remove_associated_not_target hri hg]
  rfl

theorem revOkF_sweep {f : Font} (hri : RevOkF f) {g : String}
    (hg : g ∉ cmapTargets f) :
    RevOkF (remove_glyph { f with cmap_rev := eraseKey f.cmap_rev g } g) := by
  intro c g'
  show lookupA f.cmap c = some g' ↔ c ∈ getD (eraseKey f.cmap_rev g) g' []
  by_cases hgg : g' = g
  · subst hgg
    rw [getD_eraseKey_self]
    simp only [List.not_mem_nil, iff_false]
    intro h
    exact hg (List.mem_map.mpr ⟨(c, g'), lookupA_mem h, rfl⟩)
  · rw [getD_eraseKey_ne _ hgg]
    exact hri c g'

theorem sweep_fold_cmap (gs : List String) {f : Font} (hri : RevOkF f)
    (hgs : ∀ g ∈ gs, g ∉ cmapTargets f) :
    ∃ f', gs.foldlM sweepGlyph f = .ok f' ∧ f'.cmap = f.cmap ∧ RevOkF f' := by
  induction gs generalizing f with
  | nil => exact ⟨f, rfl, rfl, hri⟩
  | cons g gs ih =>
    have hg : g ∉ cmapTargets f := hgs g (List.mem_cons_self _ _)
    have hstep := sweepGlyph_spec hri hg
    set f1 := remove_glyph { f with cmap_rev := eraseKey f.cmap_rev g } g with hf1
    have hcmap1 : f1.cmap = f.cmap := rfl
    have htargets1 : cmapTargets f1 = cmapTargets f := by
      unfold cmapTargets
      rw [hcmap1]
    obtain ⟨f', hok, hcmap, hri'⟩ := ih (revOkF_sweep hri hg)
      (fun g' hg' => htargets1 ▸ hgs g' (List.mem_cons_of_mem _ hg'))
    refine ⟨f', ?_, by rw [hcmap, hcmap1], hri'⟩
    rw [List.foldlM_cons, hstep, exceptBind_ok]
    exact hok

/-- C10: on a font whose `cmap_rev` satisfies the reverse-index invariant,
`clean_unused_glyphs` never deletes a forward `cmap` entry: every glyph it
sweeps is outside the reachable set, which contains every cmap-targeted
glyph by construction, so each swept glyph's codepoint set is empty. -/
theorem claim_C10_clean_preserves_cmap (f f₁ : Font)
    (hri : ∀ c g, lookupA f.cmap c = some g ↔ c ∈ getD f.cmap_rev g [])
    (h : clean_unused_glyphs f = .ok f₁) : f₁.cmap = f.cmap := by
  unfold clean_unused_glyphs at h
  cases hget : get_reachable_glyphs f with
  | error e =>
    rw [hget] at h
    exact Except.noConfusion h
  | ok r =>
    rw [hget, exceptBind_ok] at h
    have hsub : ∀ g ∈ cmapTargets f, g ∈ r := by
      intro g hg
      rw [reach_result_eq hget]
      exact target_mem_reachList hg
    obtain ⟨f', hok, hcmap, -⟩ :=
      sweep_fold_cmap (f.glyph_order.filter (fun g => decide (g ∉ r))) hri
        (fun g hg => by
          have hnr := List.of_mem_filter hg
          simp only [decide_eq_true_eq] at hnr
          intro ht
          exact hnr (hsub g ht))
    rw [hok] at h
    rw [Except.ok.inj h] at hcmap
    exact hcmap

/-- C10 witness: `F1` has an unreachable glyph `c` swept by the cleaner;
its `cmap` survives unchanged. -/
theorem claim_C10_clean_preserves_cmap_witness :
    ∃ f₁, clean_unused_glyphs F1 = .ok f₁ ∧ f₁.cmap = F1.cmap := by
  refine ⟨_, rfl, ?_⟩
  exact claim_C10_clean_preserves_cmap F1 _
    (fun c g => by
      have hinv := fontInv_of_build F1 (by decide) rfl
      exact hinv.2.2.2 c g)
    rfl

/-! ## Claim C3: stability of one-step targets under the sweep

Removing a glyph that is neither cmap-targeted nor a one-step target from
the GSUB lookups does not change the one-step targets of any cmap-targeted
glyph — with one exception the code permits: a ligature rule whose input
mixes a cmap-targeted glyph with an unreachable one is dropped whole,
losing its output.  The amended idempotence claim therefore assumes such
rules' inputs are reachable. -/

theorem filterMap_filter_eq {α β : Type} (l : List α) (p : α → Bool) (sel : α → Option β)
    (h : ∀ x ∈ l, sel x ≠ none → p x = true) :
    (l.filter p).filterMap sel = l.filterMap sel := by
  induction l with
  | nil => rfl
  | cons x rest ih =>
    have ihr := ih (fun y hy => h y (List.mem_cons_of_mem _ hy))
    by_cases hsel : sel x = none
    · by_cases hp : p x = true
      · rw [List.filter_cons_of_pos hp, List.filterMap_cons_none hsel,
          List.filterMap_cons_none hsel, ihr]
      · rw [List.filter_cons_of_neg (by simpa using hp), List.filterMap_cons_none hsel, ihr]
    · have hp : p x = true := h x (List.mem_cons_self _ _) hsel
      obtain ⟨b, hb⟩ := Option.ne_none_iff_exists'.mp hsel
      rw [List.filter_cons_of_pos hp, List.filterMap_cons_some hb,
        List.filterMap_cons_some hb, ihr]

theorem mem_singleTargets {st : List (String × String)} {g : String} {kv : String × String}
    (hkv : kv ∈ st) (hk : kv.1 = g) : kv.2 ∈ singleTargets st g :=
  List.mem_filterMap.mpr ⟨kv, hkv, by rw [if_pos hk]⟩

theorem mem_ligTargets {st : List LigRule} {g : String} {r : LigRule}
    (hr : r ∈ st) (hk : g ∈ r.frm) : r.toGlyph ∈ ligTargets st g :=
  List.mem_filterMap.mpr ⟨r, hr, by rw [if_pos hk]⟩

theorem singleTargets_filter {st : List (String × String)} {g gRem : String}
    (hne : g ≠ gRem)
    (hsub : ∀ kv ∈ st, kv.1 = g → kv.2 ≠ gRem) :
    singleTargets (st.filter (fun kv => decide (¬(kv.1 = gRem ∨ kv.2 = gRem)))) g
      = singleTargets st g := by
  unfold singleTargets
  apply filterMap_filter_eq
  intro kv hkv hsel
  have hk : kv.1 = g := by
    by_contra hk
    rw [if_neg hk] at hsel
    exact hsel rfl
  simp only [decide_eq_true_eq]
  push_neg
  constructor
  · rw [hk]
    exact hne
  · exact hsub kv hkv hk

theorem ligTargets_filter {st : List LigRule} {g gRem : String}
    (hfrm : ∀ r ∈ st, g ∈ r.frm → gRem ∉ r.frm)
    (hsub : ∀ r ∈ st, g ∈ r.frm → r.toGlyph ≠ gRem) :
    ligTargets (st.filter (fun r => decide (¬(gRem ∈ r.frm ∨ gRem = r.toGlyph)))) g
      = ligTargets st g := by
  unfold ligTargets
  apply filterMap_filter_eq
  intro r hr hsel
  have hk : g ∈ r.frm := by
    by_contra hk
    rw [if_neg hk] at hsel
    exact hsel rfl
  simp only [decide_eq_true_eq]
  push_neg
  exact ⟨hfrm r hr hk, fun hh => hsub r hr hk hh.symm⟩


theorem altTargets_filter {st : List (String × List String)} {g gRem : String}
    (hne : g ≠ gRem)
    (hsub : ∀ kv ∈ st, kv.1 = g → gRem ∉ kv.2) :
    altTargets ((st.filter (fun kv => decide (kv.1 ≠ gRem))).map
        (fun kv => (kv.1, kv.2.erase gRem))) g
      = altTargets st g := by
  induction st with
  | nil => rfl
  | cons kv rest ih =>
    have ihr := ih (fun kv' h' hk => hsub kv' (List.mem_cons_of_mem _ h') hk)
    rw [List.filter_cons]
    by_cases hk : kv.1 = g
    · have hkg : decide (kv.1 ≠ gRem) = true := by
        simp only [decide_eq_true_eq]
        rw [hk]
        exact hne
      rw [if_pos hkg, List.map_cons]
      unfold altTargets at ihr ⊢
      rw [List.filterMap_cons_some (show _ = some (kv.2.erase gRem) by
            dsimp only
            rw [if_pos hk]),
        List.filterMap_cons_some (show _ = some kv.2 by rw [if_pos hk])]
      rw [List.flatten_cons, List.flatten_cons, ihr,
        List.erase_of_not_mem (hsub kv (List.mem_cons_self _ _) hk)]
    · by_cases hkg : kv.1 = gRem
      · rw [if_neg (by simpa using hkg)]
        unfold altTargets at ihr ⊢
        rw [List.filterMap_cons_none (show _ = none by rw [if_neg hk])]
        exact ihr
      · rw [if_pos (by simpa using hkg), List.map_cons]
        unfold altTargets at ihr ⊢
        rw [List.filterMap_cons_none (show _ = none by
              dsimp only
              rw [if_neg hk]),
          List.filterMap_cons_none (show _ = none by rw [if_neg hk])]
        exact ihr

/-- The removal of a glyph keeps the tag of a GSUB lookup. -/
theorem gsubOk_remove (g : String) (lk : GSUBLookup) :
    gsubOk (removeGlyphGSUB g lk) = gsubOk lk := by
  cases lk <;> rfl

/-- One-step targets through one lookup are unchanged by removing a glyph
that is not the source, not a produced target, and (for ligatures) not an
input companion of the source. -/
theorem lookupTargetsP_remove_eq (g gRem : String) (lk : GSUBLookup)
    (hne : g ≠ gRem)
    (hsub : ∀ x ∈ lookupTargetsP g lk, x ≠ gRem)
    (hlig : ∀ sts, lk = GSUBLookup.gsub_ligature sts →
      ∀ st ∈ sts, ∀ r ∈ st, g ∈ r.frm → gRem ∉ r.frm) :
    lookupTargetsP g (removeGlyphGSUB gRem lk) = lookupTargetsP g lk := by
  cases lk with
  | gsub_single sts =>
    simp only [removeGlyphGSUB, lookupTargetsP, List.map_map] at hsub ⊢
    congr 1
    apply List.map_congr_left
    intro st hst
    show singleTargets (st.filter _) g = singleTargets st g
    apply singleTargets_filter hne
    intro kv hkv hk
    refine hsub kv.2 (List.mem_flatten.mpr
      ⟨singleTargets st g, List.mem_map.mpr ⟨st, hst, rfl⟩, mem_singleTargets hkv hk⟩)
  | gsub_alternate sts =>
    simp only [removeGlyphGSUB, lookupTargetsP, List.map_map] at hsub ⊢
    congr 1
    apply List.map_congr_left
    intro st hst
    show altTargets ((st.filter _).map _) g = altTargets st g
    apply altTargets_filter hne
    intro kv hkv hk hgmem
    have hx : gRem ∈ altTargets st g := by
      unfold altTargets
      exact List.mem_flatten.mpr
        ⟨kv.2, List.mem_filterMap.mpr ⟨kv, hkv, by rw [if_pos hk]⟩, hgmem⟩
    exact hsub gRem (List.mem_flatten.mpr
      ⟨altTargets st g, List.mem_map.mpr ⟨st, hst, rfl⟩, hx⟩) rfl
  | gsub_ligature sts =>
    simp only [removeGlyphGSUB, lookupTargetsP, List.map_map] at hsub ⊢
    congr 1
    apply List.map_congr_left
    intro st hst
    show ligTargets (st.filter _) g = ligTargets st g
    apply ligTargets_filter
    · intro r hr hk
      exact hlig sts rfl st hst r hr hk
    · intro r hr hk
      exact hsub r.toGlyph (List.mem_flatten.mpr
        ⟨ligTargets st g, List.mem_map.mpr ⟨st, hst, rfl⟩, mem_ligTargets hr hk⟩)
  | gsub_multiple sts => rfl
  | other tag => rfl

/-- One-step targets through a lookup list are unchanged by removing an
unreachable glyph. -/
theorem oneStep_remove_eq (lks : List (String × GSUBLookup)) (g gRem : String)
    (hne : g ≠ gRem)
    (hsub : ∀ x ∈ oneStep lks g, x ≠ gRem)
    (hlig : ∀ nl ∈ lks, ∀ sts, nl.2 = GSUBLookup.gsub_ligature sts →
      ∀ st ∈ sts, ∀ r ∈ st, g ∈ r.frm → gRem ∉ r.frm) :
    oneStep (lks.map (fun nl => (nl.1, removeGlyphGSUB gRem nl.2))) g
      = oneStep lks g := by
  unfold oneStep at hsub ⊢
  rw [List.map_map]
  congr 1
  apply List.map_congr_left
  intro nl hnl
  show lookupTargetsP g (removeGlyphGSUB gRem nl.2) = lookupTargetsP g nl.2
  apply lookupTargetsP_remove_eq g gRem nl.2 hne
  · intro x hx
    exact hsub x (List.mem_flatten.mpr
      ⟨lookupTargetsP g nl.2, List.mem_map.mpr ⟨nl, hnl, rfl⟩, hx⟩)
  · intro sts hsts
    exact hlig nl hnl sts hsts

/-- Inversion: only ligature lookups remove to ligature lookups. -/
theorem removeGlyphGSUB_lig_inv {g : String} {lk : GSUBLookup}
    {sts : List (List LigRule)} (h : removeGlyphGSUB g lk = .gsub_ligature sts) :
    ∃ sts0, lk = .gsub_ligature sts0 ∧
      sts = sts0.map (fun st =>
        st.filter (fun r => decide (¬(g ∈ r.frm ∨ g = r.toGlyph)))) := by
  cases lk with
  | gsub_ligature sts0 => exact ⟨sts0, rfl, (GSUBLookup.gsub_ligature.inj h).symm⟩
  | gsub_single sts0 => exact GSUBLookup.noConfusion h
  | gsub_alternate sts0 => exact GSUBLookup.noConfusion h
  | gsub_multiple sts0 => exact GSUBLookup.noConfusion h
  | other tag => exact GSUBLookup.noConfusion h

theorem reach_empty (f : Font) (h : f.cmap = []) :
    get_reachable_glyphs f = .ok [".notdef", ".null"] := by
  unfold get_reachable_glyphs
  rw [h]
  rfl

theorem all_ok_of_reach_ok {f : Font} {r : List String}
    (h : get_reachable_glyphs f = .ok r) (hc : f.cmap ≠ []) :
    ∀ nl ∈ f.gsub.lookups, gsubOk nl.2 = true := by
  by_contra hbad
  push_neg at hbad
  obtain ⟨nl, hnl, hb⟩ := hbad
  rw [reach_error_of_bad f hc ⟨nl, hnl, by simpa using hb⟩] at h
  exact Except.noConfusion h

theorem foldl_erase_eq_filter (gs : List String) (l : List String) (hnd : l.Nodup) :
    gs.foldl (fun o g => o.erase g) l = l.filter (fun a => decide (a ∉ gs)) := by
  induction gs generalizing l with
  | nil => simp
  | cons g gs ih =>
    rw [List.foldl_cons, ih (l.erase g) (hnd.erase g), hnd.erase_eq_filter g,
      List.filter_filter]
    apply List.filter_congr
    intro a _
    by_cases hg : a = g
    · subst hg
      simp
    · by_cases hgs : a ∈ gs <;> simp [hg, hgs]

/-- The sweep of glyphs outside the reachable set, tracked in full: the
character maps, the one-step targets of every cmap-targeted glyph, the
lookup-type health and the glyph order, provided every ligature rule fed
by a cmap-targeted glyph has only reachable inputs. -/
theorem sweep_fold_strong (cmap0 : List (Nat × String)) (lks0 : List (String × GSUBLookup))
    (R : List String)
    (hTR : ∀ g ∈ cmap0.map (·.2), g ∈ R)
    (hstepR : ∀ g ∈ cmap0.map (·.2), ∀ x ∈ oneStep lks0 g, x ∈ R) :
    ∀ gs : List String, ∀ f' : Font, (∀ g ∈ gs, g ∉ R) → f'.cmap = cmap0 → RevOkF f' →
      (∀ g ∈ cmap0.map (·.2), oneStep f'.gsub.lookups g = oneStep lks0 g) →
      (∀ nl ∈ f'.gsub.lookups, ∀ sts, nl.2 = GSUBLookup.gsub_ligature sts →
        ∀ st ∈ sts, ∀ r ∈ st, (∃ x ∈ r.frm, x ∈ cmap0.map (·.2)) → ∀ y ∈ r.frm, y ∈ R) →
      ∃ f₁, gs.foldlM sweepGlyph f' = .ok f₁ ∧
        f₁.cmap = cmap0 ∧ RevOkF f₁ ∧
        (∀ g ∈ cmap0.map (·.2), oneStep f₁.gsub.lookups g = oneStep lks0 g) ∧
        ((∀ nl ∈ f'.gsub.lookups, gsubOk nl.2 = true) →
          ∀ nl ∈ f₁.gsub.lookups, gsubOk nl.2 = true) ∧
        f₁.glyph_order = gs.foldl (fun o g => o.erase g) f'.glyph_order := by
  intro gs
  induction gs with
  | nil =>
    intro f' _ hcmap hri honestep _
    exact ⟨f', rfl, hcmap, hri, honestep, fun h => h, rfl⟩
  | cons g gs ih =>
    intro f' hgs hcmap hri honestep hlig
    have hgR : g ∉ R := hgs g (List.mem_cons_self _ _)
    have hgt : g ∉ cmapTargets f' := by
      unfold cmapTargets
      rw [hcmap]
      intro hmem
      exact hgR (hTR g hmem)
    have hstep := sweepGlyph_spec hri hgt
    set f'' := remove_glyph { f' with cmap_rev := eraseKey f'.cmap_rev g } g with hf''
    have hcmap'' : f''.cmap = cmap0 := hcmap
    have hlks'' : f''.gsub.lookups
        = f'.gsub.lookups.map (fun nl => (nl.1, removeGlyphGSUB g nl.2)) := rfl
    have honestep'' : ∀ g' ∈ cmap0.map (·.2),
        oneStep f''.gsub.lookups g' = oneStep lks0 g' := by
      intro g' hg'
      rw [hlks'', oneStep_remove_eq]
      · exact honestep g' hg'
      · intro heq
        exact hgR (heq ▸ hTR g' hg')
      · intro x hx
        rw [honestep g' hg'] at hx
        intro heq
        exact hgR (heq ▸ hstepR g' hg' x hx)
      · intro nl hnl sts hsts st hst r hr hfrm
        have hy := hlig nl hnl sts hsts st hst r hr ⟨g', hfrm, hg'⟩
        intro hgfrm
        exact hgR (hy g hgfrm)
    have hlig'' : ∀ nl ∈ f''.gsub.lookups, ∀ sts, nl.2 = GSUBLookup.gsub_ligature sts →
        ∀ st ∈ sts, ∀ r ∈ st, (∃ x ∈ r.frm, x ∈ cmap0.map (·.2)) →
        ∀ y ∈ r.frm, y ∈ R := by
      intro nl hnl sts hsts st hst r hr hx
      rw [hlks''] at hnl
      rcases List.mem_map.mp hnl with ⟨nl0, hnl0, hmap⟩
      subst hmap
      obtain ⟨sts0, hlk0, hsts0⟩ := removeGlyphGSUB_lig_inv hsts
      rw [hsts0] at hst
      rcases List.mem_map.mp hst with ⟨st0, hst0, hstmap⟩
      subst hstmap
      exact hlig nl0 hnl0 sts0 hlk0 st0 hst0 r (List.mem_of_mem_filter hr) hx
    obtain ⟨f₁, hok, h1, h2, h3, h4, h5⟩ := ih f''
      (fun g' hg' => hgs g' (List.mem_cons_of_mem _ hg'))
      hcmap'' (revOkF_sweep hri hgt) honestep'' hlig''
    refine ⟨f₁, ?_, h1, h2, h3, ?_, ?_⟩
    · rw [List.foldlM_cons, hstep, exceptBind_ok]
      exact hok
    · intro hall
      apply h4
      intro nl hnl
      rw [hlks''] at hnl
      rcases List.mem_map.mp hnl with ⟨nl0, hnl0, hmap⟩
      subst hmap
      show gsubOk (removeGlyphGSUB g nl0.2) = true
      rw [gsubOk_remove]
      exact hall nl0 hnl0
    · rw [List.foldl_cons]
      exact h5

/-- C3 (amended): on a font with duplicate-free glyph order and a valid
reverse index, a successful `clean_unused_glyphs` is idempotent —
provided every `gsub_ligature` rule whose input list contains a
cmap-targeted glyph has all of its input glyphs reachable.  (Without that
proviso the first sweep can delete a ligature rule through which
reachability was established, shrinking the reachable set of the second
call; see the counterexample.)  Then the second call computes the same
reachable set and returns the font unchanged, every table included. -/
theorem claim_C3_clean_idempotent_amended (f f₁ : Font) (R : List String)
    (hnd : f.glyph_order.Nodup)
    (hri : ∀ c g, lookupA f.cmap c = some g ↔ c ∈ getD f.cmap_rev g [])
    (hr : get_reachable_glyphs f = .ok R)
    (hlig : ∀ nl ∈ f.gsub.lookups, ∀ sts, nl.2 = GSUBLookup.gsub_ligature sts →
      ∀ st ∈ sts, ∀ r ∈ st, (∃ x ∈ r.frm, x ∈ f.cmap.map (·.2)) → ∀ y ∈ r.frm, y ∈ R)
    (h1 : clean_unused_glyphs f = .ok f₁) :
    get_reachable_glyphs f₁ = .ok R ∧ clean_unused_glyphs f₁ = .ok f₁ := by
  have hR : R = reachList f := reach_result_eq hr
  unfold clean_unused_glyphs at h1
  rw [hr, exceptBind_ok] at h1
  have hTR : ∀ g ∈ f.cmap.map (·.2), g ∈ R := by
    intro g hg
    rw [hR]
    exact target_mem_reachList hg
  have hstepR : ∀ g ∈ f.cmap.map (·.2), ∀ x ∈ oneStep f.gsub.lookups g, x ∈ R := by
    intro g hg x hx
    rw [hR]
    exact oneStep_mem_reachList hg hx
  have hgs : ∀ g ∈ f.glyph_order.filter (fun g => decide (g ∉ R)), g ∉ R := by
    intro g hg
    have := List.of_mem_filter hg
    simpa using this
  obtain ⟨f₁', hok, hcmap, hri', honestep, hokimp, horder⟩ :=
    sweep_fold_strong f.cmap f.gsub.lookups R hTR hstepR
      (f.glyph_order.filter (fun g => decide (g ∉ R))) f hgs rfl hri
      (fun _ _ => rfl) hlig
  rw [hok] at h1
  have hff : f₁' = f₁ := Except.ok.inj h1
  rw [hff] at hcmap hri' honestep hokimp horder
  have hreach1 : get_reachable_glyphs f₁ = .ok R := by
    by_cases hc : f.cmap = []
    · have h1c : f₁.cmap = [] := by rw [hcmap, hc]
      rw [reach_empty f₁ h1c, hR]
      unfold reachList
      rw [hc]
      simp
    · have hall := all_ok_of_reach_ok hr hc
      have hall1 : ∀ nl ∈ f₁.gsub.lookups, gsubOk nl.2 = true := hokimp hall
      rw [reach_ok_of_all_ok f₁ hall1, hR]
      unfold reachList
      rw [hcmap]
      congr 2
      apply congrArg List.flatten
      apply List.map_congr_left
      intro g hg
      rw [honestep g hg]
  refine ⟨hreach1, ?_⟩
  unfold clean_unused_glyphs
  rw [hreach1, exceptBind_ok]
  have horder1 : f₁.glyph_order
      = f.glyph_order.filter
          (fun a => decide (a ∉ f.glyph_order.filter (fun g => decide (g ∉ R)))) := by
    rw [horder]
    exact foldl_erase_eq_filter _ _ hnd
  have hempty : f₁.glyph_order.filter (fun g => decide (g ∉ R)) = [] := by
    apply List.filter_eq_nil_iff.mpr
    intro a ha
    rw [horder1] at ha
    have h2 := List.of_mem_filter ha
    have h3 := List.mem_of_mem_filter ha
    simp only [decide_eq_true_eq] at h2
    simp only [decide_eq_true_eq, not_not]
    by_contra haR
    exact h2 (List.mem_filter.mpr ⟨h3, by simpa using haR⟩)
  rw [hempty]
  rfl

/-- The font of the C3 witness after its first sweep: glyph `c` (only
reachable through the removed `b → c` entry in no rule — in fact simply
unreachable) is gone, and with it the `("b", "c")` entry. -/
def F1a : Font :=
  { cmap := [(49, "a")], cmap_rev := [("a", [49])],
    glyph_order := [".notdef", ".null", "a", "b"],
    glyf := [("a", ⟨0, 0, 0⟩), ("b", ⟨0, 0, 0⟩)],
    gsub := ⟨[("s", .gsub_single [[("a", "b")]])], [], [], []⟩,
    gpos := ⟨[]⟩, base := none }

/-- C3 witness: `F1` (no ligature lookups, so the proviso is vacuous)
sweeps to `F1a`, and the second call is a no-op on `F1a`. -/
theorem claim_C3_clean_idempotent_amended_witness :
    get_reachable_glyphs F1a = .ok [".notdef", ".null", "a", "b"] ∧
    clean_unused_glyphs F1a = .ok F1a :=
  claim_C3_clean_idempotent_amended F1 F1a [".notdef", ".null", "a", "b"]
    (by decide)
    (fontInv_of_build F1 (by decide) rfl).2.2.2
    rfl
    (by
      intro nl hnl sts hsts
      rcases List.mem_singleton.mp hnl with rfl
      exact GSUBLookup.noConfusion hsts)
    rfl

/-- A font with a ligature rule `{a, g} → b` where `a` is cmap-targeted
but `g` is unreachable: the first sweep of `g` deletes the rule, so the
second call no longer reaches `b`. -/
def F3 : Font :=
  { cmap := [(49, "a")], cmap_rev := build_cmap_rev [(49, "a")],
    glyph_order := [".notdef", ".null", "a", "b", "g"],
    glyf := [("a", ⟨0, 0, 0⟩), ("b", ⟨0, 0, 0⟩), ("g", ⟨0, 0, 0⟩)],
    gsub := ⟨[("l", .gsub_ligature [[⟨["a", "g"], "b"⟩]])], [], [], []⟩,
    gpos := ⟨[]⟩, base := none }

/-- C3 counterexample: on `F3` both sweeps succeed, but the second call
still removes glyph `b` — its glyph order differs from the first call's
result, so the second call is not a no-op, refuting the claim. -/
theorem claim_C3_counterexample :
    ((clean_unused_glyphs F3).map Font.glyph_order
      = .ok [".notdef", ".null", "a", "b"]) ∧
    (((clean_unused_glyphs F3).bind clean_unused_glyphs).map Font.glyph_order
      = .ok [".notdef", ".null", "a"]) ∧
    ([".notdef", ".null", "a"] : List String) ≠ [".notdef", ".null", "a", "b"] :=
  ⟨rfl, rfl, by decide⟩

end OpenCC
